import Mathlib

/-!
Verification of the bounded top-K selection and grouping engine of
`src/tools/heap-filter.js`: the `MinHeap` class and the two selection
strategies `filterBulletsByCompany` (full sort) and `filterBulletsWithHeap`
(bounded min-heap).

The embedding is shallow: JS objects holding a `company` field, an optional
numeric `relevance_score` field and opaque further fields become the `Bullet`
structure; the heap's backing array becomes a `List Bullet` (index 0 is the
root); the result object (string keys mapping to arrays) becomes an
association list in key-insertion order.  Scores are modelled as integers;
every claim under study is purely order-theoretic in the scores.  A missing
`relevance_score` is `none`; JS comparisons involving `undefined` evaluate to
`false` (NaN semantics), which `jsGE`/`jsLT` reproduce.
-/

namespace HeapFilter

/-- A JS value that may sit in the `company` field of a record.  The source
reads it only through `bullet.company || 'Unknown'` followed by use as an
object property key, so truthiness and string coercion are all that matter. -/
inductive CompanyVal where
  | undef : CompanyVal
  | null : CompanyVal
  | str : String → CompanyVal
  | num : Int → CompanyVal
  | bool : Bool → CompanyVal
deriving DecidableEq, Repr

/-- JS truthiness of a `company` value: `undefined`, `null`, `""`, `0` and
`false` are falsy, everything else is truthy. -/
def CompanyVal.truthy : CompanyVal → Bool
  | .undef => false
  | .null => false
  | .str s => decide (s ≠ "")
  | .num n => decide (n ≠ 0)
  | .bool b => b

/-- String coercion applied by JS when a value is used as a property key.
The falsy cases never reach this point in the source (the `||` replaces
them), but the function is total. -/
def CompanyVal.toKey : CompanyVal → String
  | .undef => "undefined"
  | .null => "null"
  | .str s => s
  | .num n => toString n
  | .bool b => if b then "true" else "false"

/-- One record ("bullet").  `relevance_score = none` models a record whose
`relevance_score` field is missing entirely; `payload` stands for all the
opaque extra fields the algorithm never reads. -/
structure Bullet where
  company : CompanyVal
  relevance_score : Option Int
  payload : String
deriving DecidableEq, Repr

def defaultBullet : Bullet := ⟨CompanyVal.undef, none, ""⟩

instance : Inhabited Bullet := ⟨defaultBullet⟩

/-- The score field of a bullet, as read by the source's comparisons. -/
def sval (b : Bullet) : Option Int := b.relevance_score

/-- JS `a >= b` on two score reads: false as soon as one side is
`undefined` (NaN comparison). -/
def jsGE : Option Int → Option Int → Bool
  | some a, some b => decide (b ≤ a)
  | some _, none => false
  | none, _ => false

/-- JS `a < b` on two score reads: false as soon as one side is
`undefined`. -/
def jsLT : Option Int → Option Int → Bool
  | some a, some b => decide (a < b)
  | some _, none => false
  | none, _ => false

/-- The numeric score used in ordering arguments; for bullets that carry a
score (`isSome`) it is that score. -/
def key (b : Bullet) : Int := b.relevance_score.getD 0

/-- Array read `heap[i]`; all reads performed by the source are in bounds. -/
def nth (l : List Bullet) (i : Nat) : Bullet := l.getD i defaultBullet

/-- The two-assignment swap `heap[i] = heap[j]; heap[j] = element` used by
`bubbleUp` and `sinkDown`. -/
def swapAt (l : List Bullet) (i j : Nat) : List Bullet :=
  (l.set i (nth l j)).set j (nth l i)

/-- `MinHeap.bubbleUp`, with an explicit bound on the number of loop
iterations (structural recursion on `fuel` keeps the function
kernel-reducible; the index strictly decreases, so `fuel = i` always
suffices — see `bubbleUpF_irrel`).  The loop swaps the element at `i` with
its parent while the parent's score is strictly greater
(`element.relevance_score >= parent.relevance_score` breaks the loop). -/
def bubbleUpF : Nat → List Bullet → Nat → List Bullet
  | 0, l, _ => l
  | fuel + 1, l, i =>
    if i = 0 then l
    else
      let p := (i - 1) / 2
      if jsGE (sval (nth l i)) (sval (nth l p)) then l
      else bubbleUpF fuel (swapAt l i p) p

/-- `MinHeap.bubbleUp` at index `i`. -/
def bubbleUp (l : List Bullet) (i : Nat) : List Bullet := bubbleUpF i l i

/-- The child index `sinkDown` decides to swap with, if any: the left child
when it is smaller than the element, then the right child when it is smaller
than the element (no candidate yet) or smaller than the left child. -/
def sinkSwap (l : List Bullet) (i : Nat) : Option Nat :=
  let len := l.length
  let lc := 2 * i + 1
  let rc := 2 * i + 2
  let s1 : Option Nat :=
    if lc < len ∧ jsLT (sval (nth l lc)) (sval (nth l i)) = true then some lc else none
  if rc < len then
    match s1 with
    | none => if jsLT (sval (nth l rc)) (sval (nth l i)) then some rc else none
    | some s => if jsLT (sval (nth l rc)) (sval (nth l s)) then some rc else s1
  else s1

/-- `MinHeap.sinkDown`, with an explicit bound on the number of loop
iterations (the swap target index strictly increases and stays below the
length, so `fuel = l.length` always suffices — see `sinkDownF_irrel`).  The
loop repeatedly swaps the element at `i` with the selected child until no
child is smaller. -/
def sinkDownF : Nat → List Bullet → Nat → List Bullet
  | 0, l, _ => l
  | fuel + 1, l, i =>
    match sinkSwap l i with
    | none => l
    | some j => sinkDownF fuel (swapAt l i j) j

/-- `MinHeap.sinkDown` at index `i`. -/
def sinkDown (l : List Bullet) (i : Nat) : List Bullet := sinkDownF l.length l i

/-- `MinHeap.insert`: push at the end, then bubble up from the last index. -/
def heapInsert (l : List Bullet) (b : Bullet) : List Bullet :=
  bubbleUp (l ++ [b]) ((l ++ [b]).length - 1)

/-- `MinHeap.extractMin`: `null` on the empty heap; pop directly on a
singleton; otherwise move the last element to the root and sink it down.
Returns the extracted value (if any) together with the new heap state. -/
def extractMin (l : List Bullet) : Option Bullet × List Bullet :=
  match l with
  | [] => (none, [])
  | [b] => (some b, [])
  | b :: c :: rest =>
      let full := b :: c :: rest
      (some b, sinkDown ((full.dropLast).set 0 (full.getLast (by simp))) 0)

/-- `MinHeap.peek`: `this.heap[0] || null`; records are objects, hence
truthy, so this is the head when present and `null` otherwise. -/
def peek (l : List Bullet) : Option Bullet := l.head?

/-- `MinHeap.size`. -/
def size (l : List Bullet) : Nat := l.length

/-- Draining loop, in extraction order: `extractMin` until the heap is
empty.  The fuel bound `l.length` always suffices since each extraction
shrinks the heap by one — see `drainAscF_irrel`. -/
def drainAscF : Nat → List Bullet → List Bullet
  | 0, _ => []
  | fuel + 1, l =>
    match extractMin l with
    | (none, _) => []
    | (some b, l') => b :: drainAscF fuel l'

/-- The draining loop of `filterBulletsWithHeap`, in extraction order. -/
def drainAsc (l : List Bullet) : List Bullet := drainAscF l.length l

/-- The array built by `while (heap.size() > 0) arr.unshift(heap.extractMin())`:
each extracted element goes to the front, so the array is the reverse of the
extraction order. -/
def drainFront (l : List Bullet) : List Bullet := (drainAsc l).reverse

/-- The comparator `(a, b) => b.relevance_score - a.relevance_score`
orders by score descending. -/
def descRel (a b : Bullet) : Prop := key b ≤ key a

instance : DecidableRel descRel := fun a b => Int.decLe _ _

instance : IsTotal Bullet descRel := ⟨fun a b => le_total (key b) (key a)⟩

instance : IsTrans Bullet descRel := ⟨fun _ _ _ h1 h2 => le_trans h2 h1⟩

/-- JS `array.sort((a, b) => b.relevance_score - a.relevance_score)`: a
stable sort by score descending, modelled by insertion sort (stable sorts
with the same comparator agree extensionally).  In the source the comparator
only ever runs on records that passed the `minScore` filter and therefore
carry a score. -/
def sortDesc (l : List Bullet) : List Bullet := l.insertionSort descRel

/-- Association-list lookup, modelling a read of `companies[company]`. -/
def lookupG {α : Type} : List (String × α) → String → Option α
  | [], _ => none
  | (k, v) :: rest, c => if k = c then some v else lookupG rest c

/-- Pointwise update of the value stored under key `c`, modelling a write to
`companies[company]` (keys are unique by construction). -/
def updateG {α : Type} (m : List (String × α)) (c : String) (f : α → α) :
    List (String × α) :=
  m.map fun p => if p.1 = c then (p.1, f p.2) else p

/-- The group key the source derives: `bullet.company || 'Unknown'`, coerced
to a property key. -/
def groupKey (c : CompanyVal) : String :=
  if c.truthy then c.toKey else "Unknown"

/-- One iteration of the `bullets.forEach` loop of `filterBulletsByCompany`:
create the group on first sight of the key, then push the bullet iff
`bullet.relevance_score >= minScore`. -/
def stepA (minScore : Int) (acc : List (String × List Bullet)) (b : Bullet) :
    List (String × List Bullet) :=
  let c := groupKey b.company
  let acc' := if (lookupG acc c).isSome then acc else acc ++ [(c, [])]
  if jsGE b.relevance_score (some minScore) then updateG acc' c (fun g => g ++ [b])
  else acc'

/-- Strategy A, `filterBulletsByCompany`: group with threshold filter, then
per group sort by score descending and keep the first `topK` (`slice(0, topK)`). -/
def filterBulletsByCompany (bullets : List Bullet) (topK : Nat) (minScore : Int) :
    List (String × List Bullet) :=
  let companies := bullets.foldl (stepA minScore) []
  companies.map fun p => (p.1, (sortDesc p.2).take topK)

/-- The per-group heap update of `filterBulletsWithHeap`'s loop body:
`companies[company].insert(bullet)` followed by one `extractMin()` when
`size() > topK`. -/
def heapStep (topK : Nat) (h : List Bullet) (b : Bullet) : List Bullet :=
  if topK < (heapInsert h b).length then (extractMin (heapInsert h b)).2
  else heapInsert h b

/-- One iteration of the `bullets.forEach` loop of `filterBulletsWithHeap`:
create the group's heap on first sight of the key; when the bullet passes the
threshold, insert it and evict the minimum when the size exceeds `topK`. -/
def stepB (topK : Nat) (minScore : Int) (acc : List (String × List Bullet))
    (b : Bullet) : List (String × List Bullet) :=
  let c := groupKey b.company
  let acc' := if (lookupG acc c).isSome then acc else acc ++ [(c, ([] : List Bullet))]
  if jsGE b.relevance_score (some minScore) then updateG acc' c (fun h => heapStep topK h b)
  else acc'

/-- Strategy B, `filterBulletsWithHeap`: bounded heaps per group, then drain
each heap to the front of an array and sort it by score descending. -/
def filterBulletsWithHeap (bullets : List Bullet) (topK : Nat) (minScore : Int) :
    List (String × List Bullet) :=
  let companies := bullets.foldl (stepB topK minScore) []
  companies.map fun p => (p.1, sortDesc (drainFront p.2))

/-! ### Heap verification -/

/-- Every record in the list carries a `relevance_score` ("records with
numeric relevance_score" in the spec's heap-correctness property). -/
def Scored (l : List Bullet) : Prop := ∀ b ∈ l, b.relevance_score.isSome = true

/-- Index of the parent of heap slot `i`: `Math.floor((i - 1) / 2)`. -/
def parentIdx (i : Nat) : Nat := (i - 1) / 2

/-- The binary min-heap invariant of the backing array: every non-root slot
is at least its parent, comparing by score. -/
def IsHeap (l : List Bullet) : Prop :=
  ∀ i, 0 < i → i < l.length → key (nth l (parentIdx i)) ≤ key (nth l i)

/-- The heap invariant, weakened at a single slot `i` whose entry may still
be smaller than its parent; the parent already bounds `i`'s children. -/
def UpExcept (l : List Bullet) (i : Nat) : Prop :=
  (∀ j, 0 < j → j < l.length → j ≠ i → key (nth l (parentIdx j)) ≤ key (nth l j)) ∧
  (0 < i → ∀ c, c < l.length → parentIdx c = i →
    key (nth l (parentIdx i)) ≤ key (nth l c))

/-- The heap invariant, weakened below a single slot `i` whose entry may
still exceed its children; `i`'s parent already bounds those children. -/
def DownExcept (l : List Bullet) (i : Nat) : Prop :=
  (∀ j, 0 < j → j < l.length → parentIdx j ≠ i →
    key (nth l (parentIdx j)) ≤ key (nth l j)) ∧
  (0 < i → ∀ c, c < l.length → parentIdx c = i →
    key (nth l (parentIdx i)) ≤ key (nth l c))

/-- Every record stored in a group of the strategy-A accumulator belongs to
that group's key, passed the threshold, and is one of the input records. -/
def InvA (univ : List Bullet) (m : Int) (acc : List (String × List Bullet)) : Prop :=
  ∀ p ∈ acc, ∀ b ∈ p.2,
    groupKey b.company = p.1 ∧ jsGE b.relevance_score (some m) = true ∧ b ∈ univ

/-- Every group heap of the strategy-B accumulator is a scored heap of at
most `topK` records, each belonging to that group's key, passing the
threshold, and drawn from the input. -/
def InvB (univ : List Bullet) (K : Nat) (m : Int)
    (acc : List (String × List Bullet)) : Prop :=
  ∀ p ∈ acc, IsHeap p.2 ∧ Scored p.2 ∧ p.2.length ≤ K ∧
    ∀ b ∈ p.2,
      groupKey b.company = p.1 ∧ jsGE b.relevance_score (some m) = true ∧ b ∈ univ


/-- One operation on a `MinHeap`, for quantifying over arbitrary sequences
of `insert`/`extractMin` calls. -/
inductive HeapOp where
  | ins : Bullet → HeapOp
  | ext : HeapOp
deriving DecidableEq, Repr

/-- The heap state reached from a fresh `new MinHeap()` by a sequence of
`insert` / `extractMin` calls. -/
def runOps (ops : List HeapOp) : List Bullet :=
  ops.foldl (fun h op => match op with
    | HeapOp.ins b => heapInsert h b
    | HeapOp.ext => (extractMin h).2) []

/-- Descending order on integer scores. -/
def geInt (a b : Int) : Prop := b ≤ a

instance : DecidableRel geInt := fun a b => Int.decLe b a

instance : IsTotal Int geInt := ⟨fun a b => le_total b a⟩

instance : IsTrans Int geInt := ⟨fun _ _ _ h1 h2 => le_trans h2 h1⟩

instance : IsAntisymm Int geInt := ⟨fun _ _ h1 h2 => le_antisymm h2 h1⟩

/-- Integer scores sorted descending. -/
def sortDescInt (s : List Int) : List Int := s.insertionSort geInt

/-- The multiset of scores a bounded top-K selection keeps from score list
`s`: the first `K` of `s` sorted descending. -/
def topScores (K : Nat) (s : List Int) : List Int := (sortDescInt s).take K

/-- The records of `bullets` that either loop funnels into group `c`: group
key equal to `c` and passing `relevance_score >= minScore`. -/
def groupRecords (bullets : List Bullet) (minScore : Int) (c : String) :
    List Bullet :=
  bullets.filter (fun b =>
    decide (groupKey b.company = c) && jsGE b.relevance_score (some minScore))

/-- No two records tie in score at the K-th boundary of any group: the K-th
and (K+1)-th largest scores of each group (when both exist) differ. -/
def NoBoundaryTies (bullets : List Bullet) (topK : Nat) (minScore : Int) : Prop :=
  ∀ (c : String) (a b : Int),
    (sortDescInt ((groupRecords bullets minScore c).map key))[topK - 1]? = some a →
    (sortDescInt ((groupRecords bullets minScore c).map key))[topK]? = some b →
    a ≠ b

/-- The multiset of (group key, relevance_score) pairs of a result mapping. -/
def resultPairs (res : List (String × List Bullet)) : Multiset (String × Int) :=
  ((res.map (fun p => p.2.map (fun b => (p.1, key b)))).flatten : List (String × Int))

/-- Relation between a strategy-A group list and the strategy-B heap for the
same key while the two folds run in lockstep: same key, the heap is a scored
heap of at most `K` records, and its score multiset is the top `K` of the
group's scores. -/
def EntryRel (K : Nat) (pA pB : String × List Bullet) : Prop :=
  pA.1 = pB.1 ∧ IsHeap pB.2 ∧ Scored pB.2 ∧ pB.2.length ≤ K ∧
    (∀ b ∈ pA.2, b.relevance_score.isSome = true) ∧
    ((pB.2.map key : Multiset Int) = (topScores K (pA.2.map key) : List Int))

/-- Concrete records of the spec's worked scenario. -/
def bA90 : Bullet := ⟨CompanyVal.str "A", some 90, "p90"⟩

def bA50 : Bullet := ⟨CompanyVal.str "A", some 50, "p50"⟩

def bA70 : Bullet := ⟨CompanyVal.str "A", some 70, "p70"⟩

def bB40 : Bullet := ⟨CompanyVal.str "B", some 40, "p40"⟩

/-- A record whose `relevance_score` field is missing entirely. -/
def bMissing : Bullet := ⟨CompanyVal.str "A", none, "no-score"⟩

/-- A plain scored record used to instantiate universally quantified
theorems at a concrete input. -/
def bW : Bullet := ⟨CompanyVal.str "W", some 5, "w"⟩

/-! ## Theorems -/

theorem swapAt_length (l : List Bullet) (i j : Nat) :
    (swapAt l i j).length = l.length := by
  simp [swapAt]

theorem nth_set_self {l : List Bullet} {i : Nat} (h : i < l.length) (a : Bullet) :
    nth (l.set i a) i = a := by
  simp [nth, List.getD_eq_getElem?_getD, List.getElem?_set_self', List.getElem?_eq_getElem h]

theorem nth_set_ne {i j : Nat} (h : i ≠ j) (l : List Bullet) (a : Bullet) :
    nth (l.set i a) j = nth l j := by
  simp [nth, List.getD_eq_getElem?_getD, List.getElem?_set_ne h]

theorem nth_mem {l : List Bullet} {i : Nat} (h : i < l.length) : nth l i ∈ l := by
  simp [nth, List.getD_eq_getElem?_getD, List.getElem?_eq_getElem h]

theorem nth_append_left {l : List Bullet} {j : Nat} (h : j < l.length) (b : Bullet) :
    nth (l ++ [b]) j = nth l j := by
  simp [nth, List.getD_eq_getElem?_getD, List.getElem?_append, h]

theorem nth_append_last (l : List Bullet) (b : Bullet) : nth (l ++ [b]) l.length = b := by
  simp [nth, List.getD_eq_getElem?_getD]

theorem nth_swapAt_fst {l : List Bullet} {i j : Nat} (hi : i < l.length)
    (hj : j < l.length) : nth (swapAt l i j) i = nth l j := by
  unfold swapAt
  by_cases hij : j = i
  · subst hij
    rw [nth_set_self (by simpa using hi)]
  · rw [nth_set_ne hij, nth_set_self hi]

theorem nth_swapAt_snd {l : List Bullet} {i j : Nat} (hi : i < l.length)
    (hj : j < l.length) : nth (swapAt l i j) j = nth l i := by
  unfold swapAt
  rw [nth_set_self (by simpa using hj)]

theorem nth_swapAt_other {l : List Bullet} {i j k : Nat} (hki : k ≠ i) (hkj : k ≠ j) :
    nth (swapAt l i j) k = nth l k := by
  unfold swapAt
  rw [nth_set_ne (fun h => hkj h.symm), nth_set_ne (fun h => hki h.symm)]

theorem set_cons_perm :
    ∀ (t : List Bullet) (m : Nat), m < t.length →
      ∀ x : Bullet, List.Perm (nth t m :: t.set m x) (x :: t) := by
  intro t
  induction t with
  | nil => intro m hm; simp at hm
  | cons y t' ih =>
    intro m hm x
    cases m with
    | zero =>
      simp only [List.set]
      have h0 : nth (y :: t') 0 = y := rfl
      rw [h0]
      exact List.Perm.swap x y t'
    | succ m =>
      have hm' : m < t'.length := by simpa using hm
      have h1 : nth (y :: t') (m + 1) = nth t' m := by
        simp [nth, List.getD_eq_getElem?_getD]
      simp only [List.set, h1]
      exact (List.Perm.swap y (nth t' m) (t'.set m x)).trans
        (((ih m hm' x).cons y).trans (List.Perm.swap x y t'))

theorem swapAt_perm {l : List Bullet} {i j : Nat} (hi : i < l.length)
    (hj : j < l.length) : List.Perm (swapAt l i j) l := by
  unfold swapAt
  by_cases hij : i = j
  · subst hij
    have h1 : l.set i (nth l i) = l := by
      apply List.ext_getElem
      · simp
      · intro k hk hk'
        by_cases hki : k = i
        · subst hki
          rw [List.getElem_set_self]
          simp [nth, List.getD_eq_getElem?_getD, List.getElem?_eq_getElem hk']
        · rw [List.getElem_set_ne (fun h => hki h.symm)]
    rw [h1, h1]
  · have hij' : i ≠ j := hij
    have h1 : List.Perm (nth l i :: l.set i (nth l j)) (nth l j :: l) :=
      set_cons_perm l i hi _
    have hj1 : j < (l.set i (nth l j)).length := by simpa using hj
    have h2 : List.Perm
        (nth (l.set i (nth l j)) j :: (l.set i (nth l j)).set j (nth l i))
        (nth l i :: l.set i (nth l j)) := set_cons_perm _ j hj1 _
    rw [nth_set_ne hij'] at h2
    exact (h2.trans h1).cons_inv

/-- The fuel bound of `bubbleUpF` is irrelevant once it covers the index. -/
theorem bubbleUpF_irrel :
    ∀ (f f' : Nat) (l : List Bullet) (i : Nat), i ≤ f → i ≤ f' →
      bubbleUpF f l i = bubbleUpF f' l i := by
  intro f
  induction f with
  | zero =>
    intro f' l i hf _
    interval_cases i
    cases f' <;> simp [bubbleUpF]
  | succ f ih =>
    intro f' l i hf hf'
    cases f' with
    | zero =>
      interval_cases i
      simp [bubbleUpF]
    | succ f' =>
      by_cases hi : i = 0
      · subst hi; simp [bubbleUpF]
      · simp only [bubbleUpF, if_neg hi]
        split
        · rfl
        · apply ih
          · have : (i - 1) / 2 ≤ i - 1 := Nat.div_le_self _ _
            omega
          · have : (i - 1) / 2 ≤ i - 1 := Nat.div_le_self _ _
            omega

theorem sinkSwap_some {l : List Bullet} {i j : Nat} (h : sinkSwap l i = some j) :
    i < j ∧ j < l.length := by
  unfold sinkSwap at h
  by_cases hlc : 2 * i + 1 < l.length ∧ jsLT (sval (nth l (2 * i + 1))) (sval (nth l i)) = true
  · simp only [hlc, if_true] at h
    by_cases hrc : 2 * i + 2 < l.length
    · simp only [hrc, if_true] at h
      by_cases hr : jsLT (sval (nth l (2 * i + 2))) (sval (nth l (2 * i + 1))) = true
      · simp [hr] at h; omega
      · simp [hr] at h; omega
    · simp only [hrc, if_false] at h
      rcases h with ⟨rfl⟩
      omega
  · simp only [hlc, if_false] at h
    by_cases hrc : 2 * i + 2 < l.length
    · simp only [hrc, if_true] at h
      by_cases hr : jsLT (sval (nth l (2 * i + 2))) (sval (nth l i)) = true
      · simp [hr] at h; omega
      · simp [hr] at h
    · simp [hrc] at h

theorem sinkSwap_none_of_ge {l : List Bullet} {i : Nat} (h : l.length ≤ i) :
    sinkSwap l i = none := by
  unfold sinkSwap
  have h1 : ¬ 2 * i + 1 < l.length := by omega
  have h2 : ¬ 2 * i + 2 < l.length := by omega
  simp [h1, h2]

/-- The fuel bound of `sinkDownF` is irrelevant once it covers the distance
from the index to the end of the array. -/
theorem sinkDownF_irrel :
    ∀ (f f' : Nat) (l : List Bullet) (i : Nat),
      l.length - i ≤ f → l.length - i ≤ f' →
      sinkDownF f l i = sinkDownF f' l i := by
  intro f
  induction f with
  | zero =>
    intro f' l i hf _
    have hge : l.length ≤ i := by omega
    cases f' with
    | zero => rfl
    | succ f' => simp [sinkDownF, sinkSwap_none_of_ge hge]
  | succ f ih =>
    intro f' l i hf hf'
    cases f' with
    | zero =>
      have hge : l.length ≤ i := by omega
      simp [sinkDownF, sinkSwap_none_of_ge hge]
    | succ f' =>
      simp only [sinkDownF]
      split
      · rfl
      · next j hj =>
        have hb := sinkSwap_some hj
        apply ih
        · rw [swapAt_length]; omega
        · rw [swapAt_length]; omega

theorem sinkDownF_length :
    ∀ (f : Nat) (l : List Bullet) (i : Nat), (sinkDownF f l i).length = l.length := by
  intro f
  induction f with
  | zero => intro l i; rfl
  | succ f ih =>
    intro l i
    simp only [sinkDownF]
    split
    · rfl
    · rw [ih, swapAt_length]

theorem sinkDown_length (l : List Bullet) (i : Nat) :
    (sinkDown l i).length = l.length := sinkDownF_length _ _ _

theorem extractMin_length {l : List Bullet} (h : l ≠ []) :
    ((extractMin l).2).length = l.length - 1 := by
  match l with
  | [] => exact absurd rfl h
  | [b] => simp [extractMin]
  | b :: c :: rest =>
      simp [extractMin, sinkDown_length]

theorem extractMin_fst_none {l : List Bullet} (h : (extractMin l).1 = none) :
    l = [] := by
  match l with
  | [] => rfl
  | [b] => simp [extractMin] at h
  | b :: c :: rest => simp [extractMin] at h

/-- The fuel bound of `drainAscF` is irrelevant once it covers the heap
size. -/
theorem drainAscF_irrel :
    ∀ (f f' : Nat) (l : List Bullet), l.length ≤ f → l.length ≤ f' →
      drainAscF f l = drainAscF f' l := by
  intro f
  induction f with
  | zero =>
    intro f' l hf _
    have : l = [] := by
      cases l with
      | nil => rfl
      | cons x xs => simp at hf
    subst this
    cases f' <;> simp [drainAscF, extractMin]
  | succ f ih =>
    intro f' l hf hf'
    cases f' with
    | zero =>
      have : l = [] := by
        cases l with
        | nil => rfl
        | cons x xs => simp at hf'
      subst this
      simp [drainAscF, extractMin]
    | succ f' =>
      simp only [drainAscF]
      cases hext : extractMin l with
      | mk ob l' =>
        cases ob with
        | none => simp
        | some b =>
          simp only
          have hne : l ≠ [] := by
            intro hnil; subst hnil; simp [extractMin] at hext
          have hlen := extractMin_length hne
          rw [hext] at hlen
          simp only at hlen
          rw [ih f' l' (by omega) (by omega)]

theorem jsGE_true_iff {a b : Bullet} (ha : a.relevance_score.isSome = true)
    (hb : b.relevance_score.isSome = true) :
    (jsGE (sval a) (sval b) = true ↔ key b ≤ key a) := by
  rcases Option.isSome_iff_exists.mp ha with ⟨x, hx⟩
  rcases Option.isSome_iff_exists.mp hb with ⟨y, hy⟩
  simp [jsGE, sval, key, hx, hy]

theorem jsLT_true_iff {a b : Bullet} (ha : a.relevance_score.isSome = true)
    (hb : b.relevance_score.isSome = true) :
    (jsLT (sval a) (sval b) = true ↔ key a < key b) := by
  rcases Option.isSome_iff_exists.mp ha with ⟨x, hx⟩
  rcases Option.isSome_iff_exists.mp hb with ⟨y, hy⟩
  simp [jsLT, sval, key, hx, hy]

theorem Scored.nth {l : List Bullet} (hs : Scored l) {i : Nat} (h : i < l.length) :
    (HeapFilter.nth l i).relevance_score.isSome = true :=
  hs _ (nth_mem h)

theorem Scored.of_perm {l l' : List Bullet} (hp : List.Perm l l') (hs : Scored l) :
    Scored l' := fun b hb => hs b (hp.mem_iff.mpr hb)

theorem parentIdx_lt {i : Nat} (h : 0 < i) : parentIdx i < i := by
  unfold parentIdx; omega

theorem parentIdx_eq_iff {c i : Nat} (hc : 0 < c) :
    parentIdx c = i ↔ (c = 2 * i + 1 ∨ c = 2 * i + 2) := by
  unfold parentIdx; omega

theorem isHeap_root_le {l : List Bullet} (hh : IsHeap l) :
    ∀ i, i < l.length → key (nth l 0) ≤ key (nth l i) := by
  intro i
  induction i using Nat.strong_induction_on with
  | _ i ih =>
    intro hi
    rcases Nat.eq_zero_or_pos i with h0 | h0
    · subst h0; exact le_refl _
    · have hp : parentIdx i < i := parentIdx_lt h0
      exact le_trans (ih (parentIdx i) hp (lt_trans hp hi)) (hh i h0 hi)

theorem bubbleUpF_perm :
    ∀ (fuel : Nat) (l : List Bullet) (i : Nat), i < l.length →
      List.Perm (bubbleUpF fuel l i) l := by
  intro fuel
  induction fuel with
  | zero => intro l i _; exact List.Perm.refl l
  | succ fuel ih =>
    intro l i hi
    by_cases h0 : i = 0
    · subst h0; simp [bubbleUpF]
    · simp only [bubbleUpF, if_neg h0]
      split
      · exact List.Perm.refl l
      · have hp : parentIdx i < i := parentIdx_lt (Nat.pos_of_ne_zero h0)
        have hperm := swapAt_perm hi (lt_trans hp hi)
        have hi' : parentIdx i < (swapAt l i (parentIdx i)).length := by
          rw [swapAt_length]; exact lt_trans hp hi
        exact (ih _ _ hi').trans hperm

theorem bubbleUpF_correct :
    ∀ (fuel : Nat) (l : List Bullet) (i : Nat), i ≤ fuel → i < l.length →
      Scored l → UpExcept l i → IsHeap (bubbleUpF fuel l i) := by
  intro fuel
  induction fuel with
  | zero =>
    intro l i hf hi hs hex
    have h0 : i = 0 := Nat.le_zero.mp hf
    subst h0
    intro j hj hjl
    exact hex.1 j hj hjl (Nat.pos_iff_ne_zero.mp hj)
  | succ fuel ih =>
    intro l i hf hi hs hex
    by_cases h0 : i = 0
    · subst h0
      simp only [bubbleUpF, if_pos rfl]
      intro j hj hjl
      exact hex.1 j hj hjl (Nat.pos_iff_ne_zero.mp hj)
    · have hpos : 0 < i := Nat.pos_of_ne_zero h0
      have hp : parentIdx i < i := parentIdx_lt hpos
      have hpl : parentIdx i < l.length := lt_trans hp hi
      simp only [bubbleUpF, if_neg h0]
      split
      · next hge =>
        intro j hj hjl
        by_cases hji : j = i
        · subst hji
          exact (jsGE_true_iff (hs.nth hi) (hs.nth hpl)).mp hge
        · exact hex.1 j hj hjl hji
      · next hge =>
        have hkey : key (nth l i) < key (nth l (parentIdx i)) := by
          have := (jsGE_true_iff (hs.nth hi) (hs.nth hpl)).not.mp
            (by simpa using hge)
          omega
        set p := parentIdx i with hpdef
        apply ih (swapAt l i p) p (by omega)
          (by rw [swapAt_length]; exact hpl)
          (Scored.of_perm (swapAt_perm hi hpl).symm hs)
        constructor
        · intro j hj hjl' hjp
          rw [swapAt_length] at hjl'
          by_cases hji : j = i
          · subst hji
            have h1 : nth (swapAt l j p) j = nth l p := nth_swapAt_fst hi hpl
            have h2 : nth (swapAt l j p) (parentIdx j) = nth l j := by
              rw [← hpdef]; exact nth_swapAt_snd hi hpl
            rw [← hpdef, h1, h2]
            exact le_of_lt hkey
          · have hnj : nth (swapAt l i p) j = nth l j :=
              nth_swapAt_other hji hjp
            by_cases hpar : parentIdx j = p
            · rw [hpar, hnj, nth_swapAt_snd hi hpl]
              have hvj : key (nth l p) ≤ key (nth l j) := by
                have := hex.1 j hj hjl' hji
                rw [hpar] at this
                exact this
              exact le_trans (le_of_lt hkey) hvj
            · by_cases hparI : parentIdx j = i
              · rw [hparI, nth_swapAt_fst hi hpl, hnj]
                have := hex.2 hpos j hjl' hparI
                rw [← hpdef] at this
                exact this
              · rw [hnj, nth_swapAt_other hparI hpar]
                exact hex.1 j hj hjl' hji
        · intro hppos c hc hcp
          rw [swapAt_length] at hc
          have hcpos : 0 < c := by
            rcases Nat.eq_zero_or_pos c with rfl | h
            · exfalso
              have : parentIdx 0 = 0 := rfl
              omega
            · exact h
          have hpp : parentIdx p < p := parentIdx_lt hppos
          have hppne_i : parentIdx p ≠ i := by omega
          have hppne_p : parentIdx p ≠ p := by omega
          have hnpp : nth (swapAt l i p) (parentIdx p) = nth l (parentIdx p) :=
            nth_swapAt_other hppne_i hppne_p
          rw [hnpp]
          have hpa : key (nth l (parentIdx p)) ≤ key (nth l p) := by
            have := hex.1 p hppos hpl (by omega)
            exact this
          by_cases hci : c = i
          · subst hci
            rw [nth_swapAt_fst hi hpl]
            exact hpa
          · have hcnp : c ≠ p := by
              have := parentIdx_lt hcpos
              omega
            rw [nth_swapAt_other hci hcnp]
            have hcj : key (nth l p) ≤ key (nth l c) := by
              have := hex.1 c hcpos hc hci
              rw [hcp] at this
              exact this
            exact le_trans hpa hcj

theorem heapInsert_perm (l : List Bullet) (b : Bullet) :
    List.Perm (heapInsert l b) (l ++ [b]) := by
  unfold heapInsert
  have hlt : (l ++ [b]).length - 1 < (l ++ [b]).length := by simp
  unfold bubbleUp
  exact bubbleUpF_perm _ _ _ hlt

theorem heapInsert_length (l : List Bullet) (b : Bullet) :
    (heapInsert l b).length = l.length + 1 := by
  have := (heapInsert_perm l b).length_eq
  simpa using this

theorem heapInsert_isHeap {l : List Bullet} {b : Bullet} (hs : Scored l)
    (hh : IsHeap l) (hb : b.relevance_score.isSome = true) :
    IsHeap (heapInsert l b) := by
  unfold heapInsert bubbleUp
  have hlen : (l ++ [b]).length - 1 = l.length := by simp
  have hs' : Scored (l ++ [b]) := by
    intro x hx
    rcases List.mem_append.mp hx with h | h
    · exact hs x h
    · simp at h; subst h; exact hb
  rw [hlen]
  apply bubbleUpF_correct l.length (l ++ [b]) l.length (le_refl _) (by simp) hs'
  constructor
  · intro j hj hjl hjne
    have hjlt : j < l.length := by
      simp at hjl; omega
    have hplt : parentIdx j < l.length := lt_trans (parentIdx_lt hj) hjlt
    rw [nth_append_left hjlt, nth_append_left hplt]
    exact hh j hj hjlt
  · intro hpos c hc hcp
    have hcpos : 0 < c := by
      rcases Nat.eq_zero_or_pos c with rfl | h
      · exfalso
        have : parentIdx 0 = 0 := rfl
        omega
      · exact h
    have := (parentIdx_eq_iff hcpos).mp hcp
    simp at hc
    omega

theorem sinkSwap_some_spec {l : List Bullet} {i j : Nat} (hs : Scored l)
    (hi : i < l.length) (h : sinkSwap l i = some j) :
    (j = 2 * i + 1 ∨ j = 2 * i + 2) ∧
    key (nth l j) < key (nth l i) ∧
    (2 * i + 1 < l.length → key (nth l j) ≤ key (nth l (2 * i + 1))) ∧
    (2 * i + 2 < l.length → key (nth l j) ≤ key (nth l (2 * i + 2))) := by
  have hb := sinkSwap_some h
  unfold sinkSwap at h
  by_cases hlc : 2 * i + 1 < l.length ∧
      jsLT (sval (nth l (2 * i + 1))) (sval (nth l i)) = true
  · have hllt : key (nth l (2 * i + 1)) < key (nth l i) :=
      (jsLT_true_iff (hs.nth hlc.1) (hs.nth hi)).mp hlc.2
    simp only [hlc, if_true] at h
    by_cases hrc : 2 * i + 2 < l.length
    · simp only [hrc, if_true] at h
      by_cases hr : jsLT (sval (nth l (2 * i + 2))) (sval (nth l (2 * i + 1))) = true
      · have hrlt : key (nth l (2 * i + 2)) < key (nth l (2 * i + 1)) :=
          (jsLT_true_iff (hs.nth hrc) (hs.nth hlc.1)).mp hr
        simp [hr] at h
        subst h
        exact ⟨Or.inr rfl, lt_trans hrlt hllt,
          fun _ => le_of_lt hrlt, fun _ => le_refl _⟩
      · have hrge : ¬ key (nth l (2 * i + 2)) < key (nth l (2 * i + 1)) := by
          intro hcon
          exact hr ((jsLT_true_iff (hs.nth hrc) (hs.nth hlc.1)).mpr hcon)
        simp [hr] at h
        subst h
        exact ⟨Or.inl rfl, hllt, fun _ => le_refl _, fun _ => by omega⟩
    · simp only [hrc, if_false] at h
      rcases h with ⟨rfl⟩
      exact ⟨Or.inl rfl, hllt, fun _ => le_refl _, fun hcon => absurd hcon hrc⟩
  · simp only [hlc, if_false] at h
    by_cases hrc : 2 * i + 2 < l.length
    · simp only [hrc, if_true] at h
      by_cases hr : jsLT (sval (nth l (2 * i + 2))) (sval (nth l i)) = true
      · have hrlt : key (nth l (2 * i + 2)) < key (nth l i) :=
          (jsLT_true_iff (hs.nth hrc) (hs.nth hi)).mp hr
        simp [hr] at h
        subst h
        refine ⟨Or.inr rfl, hrlt, ?_, fun _ => le_refl _⟩
        intro hlcl
        have : ¬ key (nth l (2 * i + 1)) < key (nth l i) := by
          intro hcon
          exact hlc ⟨hlcl, (jsLT_true_iff (hs.nth hlcl) (hs.nth hi)).mpr hcon⟩
        omega
      · simp [hr] at h
    · simp [hrc] at h

theorem sinkSwap_none_spec {l : List Bullet} {i : Nat} (hs : Scored l)
    (hi : i < l.length) (h : sinkSwap l i = none) :
    (2 * i + 1 < l.length → key (nth l i) ≤ key (nth l (2 * i + 1))) ∧
    (2 * i + 2 < l.length → key (nth l i) ≤ key (nth l (2 * i + 2))) := by
  unfold sinkSwap at h
  by_cases hlc : 2 * i + 1 < l.length ∧
      jsLT (sval (nth l (2 * i + 1))) (sval (nth l i)) = true
  · simp only [hlc, if_true] at h
    by_cases hrc : 2 * i + 2 < l.length
    · simp only [hrc, if_true] at h
      by_cases hr : jsLT (sval (nth l (2 * i + 2))) (sval (nth l (2 * i + 1))) = true
      · simp [hr] at h
      · simp [hr] at h
    · simp [hrc] at h
  · constructor
    · intro hlcl
      have : ¬ key (nth l (2 * i + 1)) < key (nth l i) := by
        intro hcon
        exact hlc ⟨hlcl, (jsLT_true_iff (hs.nth hlcl) (hs.nth hi)).mpr hcon⟩
      omega
    · intro hrcl
      simp only [hlc, if_false] at h
      simp only [hrcl, if_true] at h
      have hr : ¬ jsLT (sval (nth l (2 * i + 2))) (sval (nth l i)) = true := by
        intro hcon
        simp [hcon] at h
      have : ¬ key (nth l (2 * i + 2)) < key (nth l i) := by
        intro hcon
        exact hr ((jsLT_true_iff (hs.nth hrcl) (hs.nth hi)).mpr hcon)
      omega

theorem sinkDownF_perm :
    ∀ (fuel : Nat) (l : List Bullet) (i : Nat), List.Perm (sinkDownF fuel l i) l := by
  intro fuel
  induction fuel with
  | zero => intro l i; exact List.Perm.refl l
  | succ fuel ih =>
    intro l i
    simp only [sinkDownF]
    split
    · exact List.Perm.refl l
    · next j hj =>
      have hb := sinkSwap_some hj
      have hperm := swapAt_perm (lt_trans hb.1 hb.2) hb.2
      exact (ih _ _).trans hperm

theorem sinkDownF_correct :
    ∀ (fuel : Nat) (l : List Bullet) (i : Nat), l.length - i ≤ fuel →
      Scored l → DownExcept l i → IsHeap (sinkDownF fuel l i) := by
  intro fuel
  induction fuel with
  | zero =>
    intro l i hf hs hex
    simp only [sinkDownF]
    intro j hj hjl
    by_cases hpar : parentIdx j = i
    · exfalso
      have := (parentIdx_eq_iff hj).mp hpar
      omega
    · exact hex.1 j hj hjl hpar
  | succ fuel ih =>
    intro l i hf hs hex
    simp only [sinkDownF]
    split
    · next hnone =>
      intro j hj hjl
      by_cases hpar : parentIdx j = i
      · have hchild := (parentIdx_eq_iff hj).mp hpar
        have hi : i < l.length := by omega
        have hspec := sinkSwap_none_spec hs hi hnone
        rw [hpar]
        rcases hchild with h | h
        · subst h; exact hspec.1 hjl
        · subst h; exact hspec.2 hjl
      · exact hex.1 j hj hjl hpar
    · next j hsome =>
      have hb := sinkSwap_some hsome
      have hi : i < l.length := lt_trans hb.1 hb.2
      have hspec := sinkSwap_some_spec hs hi hsome
      have hij : i < j := hb.1
      have hjl : j < l.length := hb.2
      apply ih (swapAt l i j) j (by rw [swapAt_length]; omega)
        (Scored.of_perm (swapAt_perm hi hjl).symm hs)
      have hnew_i : nth (swapAt l i j) i = nth l j := nth_swapAt_fst hi hjl
      have hnew_j : nth (swapAt l i j) j = nth l i := nth_swapAt_snd hi hjl
      have hparj : parentIdx j = i := by
        rcases hspec.1 with h | h <;> (subst h; unfold parentIdx; omega)
      constructor
      · intro jj hjj hjjl hjjne
        rw [swapAt_length] at hjjl
        by_cases hjjj : jj = j
        · subst hjjj
          rw [hparj, hnew_i, hnew_j]
          exact le_of_lt hspec.2.1
        · by_cases hjji : jj = i
          · subst hjji
            have hppos : 0 < jj := hjj
            have hplt : parentIdx jj < jj := parentIdx_lt hppos
            have h1 : nth (swapAt l jj j) (parentIdx jj) = nth l (parentIdx jj) :=
              nth_swapAt_other (by omega) (by omega)
            rw [h1, hnew_i]
            exact hex.2 hppos j hjl hparj
          · have hnjj : nth (swapAt l i j) jj = nth l jj :=
              nth_swapAt_other hjji hjjj
            by_cases hpari : parentIdx jj = i
            · rw [hpari, hnjj, hnew_i]
              have hchild := (parentIdx_eq_iff hjj).mp hpari
              rcases hchild with h | h
              · subst h; exact hspec.2.2.1 hjjl
              · subst h; exact hspec.2.2.2 hjjl
            · rw [hnjj, nth_swapAt_other hpari hjjne]
              exact hex.1 jj hjj hjjl hpari
      · intro hjpos c hc hcp
        rw [swapAt_length] at hc
        have hcpos : 0 < c := by
          rcases Nat.eq_zero_or_pos c with rfl | h
          · exfalso
            have : parentIdx 0 = 0 := rfl
            omega
          · exact h
        have hcj : j < c := by
          have := (parentIdx_eq_iff hcpos).mp hcp
          omega
        rw [hparj, hnew_i, nth_swapAt_other (by omega) (by omega)]
        have := hex.1 c hcpos hc (by omega)
        rw [hcp] at this
        exact this

theorem nth_eq_getElem {l : List Bullet} {i : Nat} (h : i < l.length) :
    nth l i = l[i] := by
  simp [nth, List.getD_eq_getElem?_getD, List.getElem?_eq_getElem h]

theorem nth_dropLast {l : List Bullet} {k : Nat} (h : k < l.dropLast.length) :
    nth l.dropLast k = nth l k := by
  have h' : k < l.length := by simp at h; omega
  rw [nth_eq_getElem h, nth_eq_getElem h']
  exact List.getElem_dropLast ..

theorem extractMin_fst {l : List Bullet} (h : l ≠ []) :
    (extractMin l).1 = some (nth l 0) := by
  match l with
  | [] => exact absurd rfl h
  | [b] => rfl
  | b :: c :: rest => rfl

theorem extractMin_cons_perm {l : List Bullet} (h : l ≠ []) :
    List.Perm (nth l 0 :: (extractMin l).2) l := by
  match l with
  | [] => exact absurd rfl h
  | [b] => simp [extractMin, nth, List.getD_eq_getElem?_getD]
  | b :: c :: rest =>
    have hne : c :: rest ≠ [] := by simp
    have hroot : nth (b :: c :: rest) 0 = b := rfl
    rw [hroot]
    simp only [extractMin]
    have hdl : (b :: c :: rest).dropLast = b :: (c :: rest).dropLast := by
      simp [List.dropLast]
    have hgl : (b :: c :: rest).getLast (by simp) = (c :: rest).getLast hne :=
      List.getLast_cons hne
    have hset : ((b :: c :: rest).dropLast).set 0 ((b :: c :: rest).getLast (by simp)) =
        (c :: rest).getLast hne :: (c :: rest).dropLast := by
      rw [hdl, hgl]; rfl
    rw [hset]
    apply List.Perm.cons b
    have h1 := sinkDownF_perm (((c :: rest).getLast hne :: (c :: rest).dropLast).length)
      ((c :: rest).getLast hne :: (c :: rest).dropLast) 0
    apply h1.trans
    have h2 : List.Perm ((c :: rest).getLast hne :: (c :: rest).dropLast)
        ((c :: rest).dropLast ++ [(c :: rest).getLast hne]) :=
      (List.perm_append_singleton _ _).symm
    apply h2.trans
    rw [List.dropLast_append_getLast hne]

theorem extractMin_snd_perm {l : List Bullet} (h : l ≠ []) :
    List.Perm (nth l 0 :: (extractMin l).2) l := extractMin_cons_perm h

theorem extractMin_isHeap {l : List Bullet} (hs : Scored l) (hh : IsHeap l) :
    IsHeap (extractMin l).2 := by
  match l with
  | [] => intro j hj hjl; simp [extractMin] at hjl
  | [b] => intro j hj hjl; simp [extractMin] at hjl
  | b :: c :: rest =>
    have hne : c :: rest ≠ [] := by simp
    simp only [extractMin]
    set full := b :: c :: rest with hfull
    set start := (full.dropLast).set 0 (full.getLast (by simp)) with hstart
    have hlen : start.length = full.length - 1 := by
      rw [hstart]; simp
    apply sinkDownF_correct start.length start 0 (by omega)
    · intro x hx
      rw [hstart] at hx
      rcases List.mem_or_eq_of_mem_set hx with hmem | heq
      · exact hs x (List.mem_of_mem_dropLast hmem)
      · subst heq; exact hs _ (List.getLast_mem (by simp))
    · constructor
      · intro j hj hjl hpar
        have hppos : 0 < parentIdx j := Nat.pos_of_ne_zero hpar
        have hplt : parentIdx j < j := parentIdx_lt hj
        have hfl : full.length = rest.length + 2 := by rw [hfull]; simp
        have hdl : full.dropLast.length = rest.length + 1 := by
          rw [hfull]; simp
        have hsl : start.length = rest.length + 1 := by
          rw [hstart]; simp [hdl]
        rw [hsl] at hjl
        have hjd : j < full.dropLast.length := by omega
        have hpd : parentIdx j < full.dropLast.length := by omega
        have h1 : nth start j = nth full j := by
          rw [hstart, nth_set_ne (by omega), nth_dropLast hjd]
        have h2 : nth start (parentIdx j) = nth full (parentIdx j) := by
          rw [hstart, nth_set_ne (by omega), nth_dropLast hpd]
        rw [h1, h2]
        exact hh j hj (by omega)
      · intro hcon; exact absurd rfl (Nat.pos_iff_ne_zero.mp hcon)

theorem extractMin_root_min {l : List Bullet} (hs : Scored l) (hh : IsHeap l) :
    ∀ y ∈ l, key (nth l 0) ≤ key y := by
  intro y hy
  rcases List.mem_iff_getElem.mp hy with ⟨k, hk, hky⟩
  have := isHeap_root_le hh k hk
  rw [nth_eq_getElem hk, hky] at this
  exact this

theorem drainAsc_nil : drainAsc [] = [] := rfl

theorem drainAsc_cons {l : List Bullet} (h : l ≠ []) :
    drainAsc l = nth l 0 :: drainAsc (extractMin l).2 := by
  have hfst := extractMin_fst h
  have hlen := extractMin_length h
  match hl : l with
  | [] => exact absurd rfl h
  | x :: xs =>
    unfold drainAsc
    simp only [List.length_cons, drainAscF]
    have hpair : extractMin (x :: xs) = (some (nth (x :: xs) 0), (extractMin (x :: xs)).2) := by
      rw [← hfst]
    rw [hpair]
    simp only
    congr 1
    have : (extractMin (x :: xs)).2.length = xs.length := by
      rw [hlen]; simp
    rw [this]

theorem drain_spec :
    ∀ (n : Nat) (l : List Bullet), l.length = n → Scored l → IsHeap l →
      List.Sorted (fun a b => key a ≤ key b) (drainAsc l) ∧
        List.Perm (drainAsc l) l := by
  intro n
  induction n with
  | zero =>
    intro l hl _ _
    have : l = [] := List.length_eq_zero.mp hl
    subst this
    exact ⟨List.sorted_nil, List.Perm.refl _⟩
  | succ n ih =>
    intro l hl hs hh
    have hne : l ≠ [] := by
      intro hcon; subst hcon; simp at hl
    rw [drainAsc_cons hne]
    have hperm := extractMin_cons_perm hne
    have hrest_len : (extractMin l).2.length = n := by
      rw [extractMin_length hne, hl]
      omega
    have hrest_scored : Scored (extractMin l).2 := by
      intro x hx
      exact hs x (hperm.mem_iff.mp (List.mem_cons_of_mem _ hx))
    have hrest_heap := extractMin_isHeap hs hh
    have hih := ih _ hrest_len hrest_scored hrest_heap
    constructor
    · apply List.sorted_cons.mpr
      refine ⟨?_, hih.1⟩
      intro y hy
      have hyl : y ∈ l := hperm.mem_iff.mp
        (List.mem_cons_of_mem _ (hih.2.mem_iff.mp hy))
      exact extractMin_root_min hs hh y hyl
    · exact (hih.2.cons _).trans hperm

/-! ### Association-list lemmas -/

theorem lookupG_isSome_iff {α : Type} (m : List (String × α)) (c : String) :
    (lookupG m c).isSome = true ↔ c ∈ m.map Prod.fst := by
  induction m with
  | nil => simp [lookupG]
  | cons p rest ih =>
    by_cases h : p.1 = c
    · simp [lookupG, h]
    · simp [lookupG, h, ih, Ne.symm h]

theorem lookupG_updateG_keys {α : Type} (m : List (String × α)) (c : String)
    (f : α → α) : (updateG m c f).map Prod.fst = m.map Prod.fst := by
  induction m with
  | nil => rfl
  | cons p rest ih =>
    by_cases h : p.1 = c <;> simp [updateG, h] <;> simpa [updateG] using ih

theorem mem_updateG {α : Type} {m : List (String × α)} {c : String} {f : α → α}
    {q : String × α} (hq : q ∈ updateG m c f) :
    ∃ p ∈ m, q = if p.1 = c then (p.1, f p.2) else p := by
  rcases List.mem_map.mp hq with ⟨p, hp, hpe⟩
  exact ⟨p, hp, hpe.symm⟩

/-- Fold invariance: a predicate preserved by every step holds of the
result. -/
theorem foldl_inv {α σ : Type} (P : σ → Prop) (f : σ → α → σ) :
    ∀ (l : List α) (init : σ), P init → (∀ s a, a ∈ l → P s → P (f s a)) →
      P (List.foldl f init l) := by
  intro l
  induction l with
  | nil => intro init h0 _; exact h0
  | cons a rest ih =>
    intro init h0 hstep
    exact ih (f init a)
      (hstep init a (List.mem_cons_self a rest) h0)
      (fun s a' ha' hs => hstep s a' (List.mem_cons_of_mem a ha') hs)

/-! ### Per-entry invariants of the two grouping folds -/

theorem jsGE_isSome_left {a : Option Int} {m : Int} (h : jsGE a (some m) = true) :
    a.isSome = true := by
  cases a with
  | none => simp [jsGE] at h
  | some x => rfl

theorem stepA_inv {univ : List Bullet} {m : Int} {acc : List (String × List Bullet)}
    {b : Bullet} (hb : b ∈ univ) (hacc : InvA univ m acc) :
    InvA univ m (stepA m acc b) := by
  unfold stepA
  set c := groupKey b.company with hc
  set acc' := if (lookupG acc c).isSome then acc else acc ++ [(c, [])] with hacc'
  have hinv' : InvA univ m acc' := by
    rw [hacc']
    split
    · exact hacc
    · intro p hp x hx
      rcases List.mem_append.mp hp with h | h
      · exact hacc p h x hx
      · simp at h
        subst h
        simp at hx
  split
  · next hge =>
    intro p hp
    rcases mem_updateG hp with ⟨q, hq, hqe⟩
    subst hqe
    by_cases hqc : q.1 = c
    · rw [if_pos hqc]
      intro x hx
      simp only at hx
      rcases List.mem_append.mp hx with h | h
      · exact hinv' q hq x h
      · simp at h
        subst h
        exact ⟨by rw [hqc, hc], hge, hb⟩
    · rw [if_neg hqc]
      exact hinv' q hq
  · exact hinv'

theorem foldA_inv {univ : List Bullet} {m : Int} :
    ∀ (bs : List Bullet), (∀ b ∈ bs, b ∈ univ) →
      ∀ acc, InvA univ m acc → InvA univ m (List.foldl (stepA m) acc bs) := by
  intro bs hsub acc hacc
  exact foldl_inv (InvA univ m) (stepA m) bs acc hacc
    (fun s a ha hs => stepA_inv (hsub a ha) hs)

theorem heapStep_spec {K : Nat} {h : List Bullet} {b : Bullet}
    (hheap : IsHeap h) (hsc : Scored h) (hlen : h.length ≤ K)
    (hb : b.relevance_score.isSome = true) :
    IsHeap (heapStep K h b) ∧ Scored (heapStep K h b) ∧
      (heapStep K h b).length ≤ K ∧ ∀ x ∈ heapStep K h b, x ∈ h ∨ x = b := by
  unfold heapStep
  have hins_heap : IsHeap (heapInsert h b) := heapInsert_isHeap hsc hheap hb
  have hins_perm := heapInsert_perm h b
  have hins_scored : Scored (heapInsert h b) := by
    apply Scored.of_perm hins_perm.symm
    intro x hx
    rcases List.mem_append.mp hx with hmem | hmem
    · exact hsc x hmem
    · simp at hmem; subst hmem; exact hb
  have hins_len : (heapInsert h b).length = h.length + 1 := heapInsert_length h b
  have hins_mem : ∀ x ∈ heapInsert h b, x ∈ h ∨ x = b := by
    intro x hx
    rcases List.mem_append.mp (hins_perm.mem_iff.mp hx) with hmem | hmem
    · exact Or.inl hmem
    · simp at hmem; exact Or.inr hmem
  split
  · next hover =>
    have hne : heapInsert h b ≠ [] := by
      intro hcon
      rw [hcon] at hins_len
      simp at hins_len
    have hperm2 := extractMin_cons_perm hne
    refine ⟨extractMin_isHeap hins_scored hins_heap, ?_, ?_, ?_⟩
    · intro x hx
      exact hins_scored x (hperm2.mem_iff.mp (List.mem_cons_of_mem _ hx))
    · rw [extractMin_length hne, hins_len]
      omega
    · intro x hx
      exact hins_mem x (hperm2.mem_iff.mp (List.mem_cons_of_mem _ hx))
  · next hover =>
    exact ⟨hins_heap, hins_scored, by omega, hins_mem⟩

theorem stepB_inv {univ : List Bullet} {K : Nat} {m : Int}
    {acc : List (String × List Bullet)} {b : Bullet} (hb : b ∈ univ)
    (hacc : InvB univ K m acc) : InvB univ K m (stepB K m acc b) := by
  unfold stepB
  set c := groupKey b.company with hc
  set acc' := if (lookupG acc c).isSome then acc
    else acc ++ [(c, ([] : List Bullet))] with hacc'
  have hinv' : InvB univ K m acc' := by
    rw [hacc']
    split
    · exact hacc
    · intro p hp
      rcases List.mem_append.mp hp with h | h
      · exact hacc p h
      · simp at h
        subst h
        refine ⟨?_, ?_, ?_, ?_⟩
        · intro j hj hjl; simp at hjl
        · intro x hx; simp at hx
        · simp
        · intro x hx; simp at hx
  split
  · next hge =>
    intro p hp
    rcases mem_updateG hp with ⟨q, hq, hqe⟩
    subst hqe
    by_cases hqc : q.1 = c
    · rw [if_pos hqc]
      obtain ⟨hqh, hqs, hql, hqm⟩ := hinv' q hq
      have hbs : b.relevance_score.isSome = true := jsGE_isSome_left hge
      obtain ⟨h1, h2, h3, h4⟩ := heapStep_spec hqh hqs hql hbs
      refine ⟨h1, h2, h3, ?_⟩
      intro x hx
      simp only at hx
      rcases h4 x hx with hmem | hmem
      · exact hqm x hmem
      · subst hmem
        exact ⟨by rw [hqc, hc], hge, hb⟩
    · rw [if_neg hqc]
      exact hinv' q hq
  · exact hinv'

theorem foldB_inv {univ : List Bullet} {K : Nat} {m : Int} :
    ∀ (bs : List Bullet), (∀ b ∈ bs, b ∈ univ) →
      ∀ acc, InvB univ K m acc → InvB univ K m (List.foldl (stepB K m) acc bs) := by
  intro bs hsub acc hacc
  exact foldl_inv (InvB univ K m) (stepB K m) bs acc hacc
    (fun s a ha hs => stepB_inv (hsub a ha) hs)

/-! ### Group keys of the two folds -/

theorem keys_stepA (m : Int) (acc : List (String × List Bullet)) (b : Bullet) :
    (stepA m acc b).map Prod.fst =
      if (lookupG acc (groupKey b.company)).isSome then acc.map Prod.fst
      else acc.map Prod.fst ++ [groupKey b.company] := by
  by_cases hl : (lookupG acc (groupKey b.company)).isSome = true
  · simp only [stepA, if_pos hl]
    split
    · rw [lookupG_updateG_keys]
    · rfl
  · simp only [stepA, if_neg hl]
    split
    · rw [lookupG_updateG_keys]; simp
    · simp

theorem keys_stepB (K : Nat) (m : Int) (acc : List (String × List Bullet))
    (b : Bullet) :
    (stepB K m acc b).map Prod.fst =
      if (lookupG acc (groupKey b.company)).isSome then acc.map Prod.fst
      else acc.map Prod.fst ++ [groupKey b.company] := by
  by_cases hl : (lookupG acc (groupKey b.company)).isSome = true
  · simp only [stepB, if_pos hl]
    split
    · rw [lookupG_updateG_keys]
    · rfl
  · simp only [stepB, if_neg hl]
    split
    · rw [lookupG_updateG_keys]; simp
    · simp

theorem keys_fold_eq {K : Nat} {m : Int} :
    ∀ (bs : List Bullet) (accA accB : List (String × List Bullet)),
      accA.map Prod.fst = accB.map Prod.fst →
      (List.foldl (stepA m) accA bs).map Prod.fst =
        (List.foldl (stepB K m) accB bs).map Prod.fst := by
  intro bs
  induction bs with
  | nil => intro accA accB h; exact h
  | cons b rest ih =>
    intro accA accB h
    simp only [List.foldl_cons]
    apply ih
    rw [keys_stepA, keys_stepB]
    have hiff : ((lookupG accA (groupKey b.company)).isSome = true) ↔
        ((lookupG accB (groupKey b.company)).isSome = true) := by
      rw [lookupG_isSome_iff, lookupG_isSome_iff, h]
    have hsome : (lookupG accA (groupKey b.company)).isSome =
        (lookupG accB (groupKey b.company)).isSome := by
      cases hA : (lookupG accA (groupKey b.company)).isSome <;>
        cases hB : (lookupG accB (groupKey b.company)).isSome <;> simp_all
    rw [hsome, h]

theorem keys_foldA_mono {m : Int} :
    ∀ (bs : List Bullet) (acc : List (String × List Bullet)) (c : String),
      c ∈ acc.map Prod.fst → c ∈ (List.foldl (stepA m) acc bs).map Prod.fst := by
  intro bs
  induction bs with
  | nil => intro acc c h; exact h
  | cons b rest ih =>
    intro acc c h
    simp only [List.foldl_cons]
    apply ih
    rw [keys_stepA]
    split
    · exact h
    · exact List.mem_append_left _ h

theorem mem_keys_foldA {m : Int} :
    ∀ (bs : List Bullet) (acc : List (String × List Bullet)) (b : Bullet),
      b ∈ bs → groupKey b.company ∈ (List.foldl (stepA m) acc bs).map Prod.fst := by
  intro bs
  induction bs with
  | nil => intro acc b h; simp at h
  | cons x rest ih =>
    intro acc b h
    simp only [List.foldl_cons]
    rcases List.mem_cons.mp h with h | h
    · subst h
      apply keys_foldA_mono
      rw [keys_stepA]
      split
      · next hl => exact (lookupG_isSome_iff acc _).mp hl
      · exact List.mem_append_right _ (by simp)
    · exact ih _ b h

/-! ### Sorting lemmas -/

theorem sortDesc_perm (l : List Bullet) : List.Perm (sortDesc l) l :=
  List.perm_insertionSort descRel l

theorem sortDesc_sorted (l : List Bullet) : List.Sorted descRel (sortDesc l) :=
  List.sorted_insertionSort descRel l

theorem sortDesc_take_sorted (l : List Bullet) (k : Nat) :
    List.Sorted descRel ((sortDesc l).take k) :=
  List.Pairwise.sublist (List.take_sublist k (sortDesc l)) (sortDesc_sorted l)

theorem mem_sortDesc_take {l : List Bullet} {k : Nat} {b : Bullet}
    (h : b ∈ (sortDesc l).take k) : b ∈ l :=
  (sortDesc_perm l).mem_iff.mp (List.mem_of_mem_take h)

theorem toDigitsCore_length_ge (base : Nat) :
    ∀ (f n : Nat) (l : List Char), 1 ≤ f →
      l.length + 1 ≤ (Nat.toDigitsCore base f n l).length := by
  intro f
  induction f with
  | zero => intro n l h; exact absurd h (by omega)
  | succ f ih =>
    intro n l _
    simp only [Nat.toDigitsCore]
    split
    · simp
    · rcases Nat.eq_zero_or_pos f with rfl | hf
      · simp [Nat.toDigitsCore]
      · have := ih (n / base) (Nat.digitChar (n % base) :: l) hf
        simp only [List.length_cons] at this
        omega

theorem natToString_ne_empty (n : Nat) : Nat.repr n ≠ "" := by
  unfold Nat.repr
  intro hcon
  have h1 := toDigitsCore_length_ge 10 (n + 1) n [] (by omega)
  simp only [List.length_nil] at h1
  have h2 : (Nat.toDigits 10 n).asString.data = "".data := by rw [hcon]
  simp [List.asString] at h2
  rw [Nat.toDigits] at h2
  rw [h2] at h1
  simp at h1

theorem intToString_ne_empty (n : Int) : toString n ≠ "" := by
  cases n with
  | ofNat m => exact natToString_ne_empty m
  | negSucc m =>
    show "-" ++ toString (m + 1) ≠ ""
    intro hcon
    have hL := congrArg String.length hcon
    rw [String.length_append] at hL
    have h1 : ("-" : String).length = 1 := rfl
    have h2 : ("" : String).length = 0 := rfl
    omega

theorem groupKey_ne_empty (c : CompanyVal) : groupKey c ≠ "" := by
  unfold groupKey
  split
  · next ht =>
    cases c with
    | undef => simp [CompanyVal.truthy] at ht
    | null => simp [CompanyVal.truthy] at ht
    | str s =>
      simp [CompanyVal.truthy] at ht
      simpa [CompanyVal.toKey] using ht
    | num n => exact intToString_ne_empty n
    | bool b =>
      simp [CompanyVal.toKey]
      split
      · intro hcon
        exact absurd hcon (by decide)
      · intro hcon
        exact absurd hcon (by decide)
  · intro hcon
    exact absurd hcon (by decide)

/-- Every key in either fold's accumulator is one that was already there or
the group key of one of the processed records. -/
theorem keys_fold_subset {σ : Type} (step : List (String × σ) → Bullet → List (String × σ))
    (hstep : ∀ acc b, (step acc b).map Prod.fst = acc.map Prod.fst ∨
        (step acc b).map Prod.fst = acc.map Prod.fst ++ [groupKey b.company]) :
    ∀ (bs : List Bullet) (acc : List (String × σ)) (k : String),
      k ∈ (List.foldl step acc bs).map Prod.fst →
      k ∈ acc.map Prod.fst ∨ ∃ b ∈ bs, k = groupKey b.company := by
  intro bs
  induction bs with
  | nil => intro acc k h; exact Or.inl h
  | cons b rest ih =>
    intro acc k h
    simp only [List.foldl_cons] at h
    rcases ih (step acc b) k h with h1 | h1
    · rcases hstep acc b with h2 | h2
      · rw [h2] at h1; exact Or.inl h1
      · rw [h2] at h1
        rcases List.mem_append.mp h1 with h3 | h3
        · exact Or.inl h3
        · simp at h3
          exact Or.inr ⟨b, by simp, h3⟩
    · rcases h1 with ⟨b', hb', hk⟩
      exact Or.inr ⟨b', List.mem_cons_of_mem _ hb', hk⟩

theorem keys_stepA_or {m : Int} (acc : List (String × List Bullet)) (b : Bullet) :
    (stepA m acc b).map Prod.fst = acc.map Prod.fst ∨
      (stepA m acc b).map Prod.fst = acc.map Prod.fst ++ [groupKey b.company] := by
  rw [keys_stepA]
  split
  · exact Or.inl rfl
  · exact Or.inr rfl

theorem keys_stepB_or {K : Nat} {m : Int} (acc : List (String × List Bullet))
    (b : Bullet) :
    (stepB K m acc b).map Prod.fst = acc.map Prod.fst ∨
      (stepB K m acc b).map Prod.fst = acc.map Prod.fst ++ [groupKey b.company] := by
  rw [keys_stepB]
  split
  · exact Or.inl rfl
  · exact Or.inr rfl

/-! ### Shapes of the two results -/

theorem keys_mapVals {α β : Type} (m : List (String × α)) (f : String × α → β) :
    (m.map (fun p => (p.1, f p))).map Prod.fst = m.map Prod.fst := by
  induction m with
  | nil => rfl
  | cons p rest ih => simp [ih]

theorem filterA_entry {bullets : List Bullet} {topK : Nat} {minScore : Int}
    {p : String × List Bullet}
    (hp : p ∈ filterBulletsByCompany bullets topK minScore) :
    ∃ q ∈ List.foldl (stepA minScore) [] bullets,
      p = (q.1, (sortDesc q.2).take topK) := by
  unfold filterBulletsByCompany at hp
  rcases List.mem_map.mp hp with ⟨q, hq, hqe⟩
  exact ⟨q, hq, hqe.symm⟩

theorem filterB_entry {bullets : List Bullet} {topK : Nat} {minScore : Int}
    {p : String × List Bullet}
    (hp : p ∈ filterBulletsWithHeap bullets topK minScore) :
    ∃ q ∈ List.foldl (stepB topK minScore) [] bullets,
      p = (q.1, sortDesc (drainFront q.2)) := by
  unfold filterBulletsWithHeap at hp
  rcases List.mem_map.mp hp with ⟨q, hq, hqe⟩
  exact ⟨q, hq, hqe.symm⟩

theorem invA_result (bullets : List Bullet) (m : Int) :
    InvA bullets m (List.foldl (stepA m) [] bullets) :=
  foldA_inv bullets (fun _ h => h) [] (by intro p hp; simp at hp)

theorem invB_result (bullets : List Bullet) (K : Nat) (m : Int) :
    InvB bullets K m (List.foldl (stepB K m) [] bullets) :=
  foldB_inv bullets (fun _ h => h) [] (by intro p hp; simp at hp)

theorem drainFront_perm {h : List Bullet} (hh : IsHeap h) (hs : Scored h) :
    List.Perm (drainFront h) h := by
  unfold drainFront
  exact (List.reverse_perm _).trans (drain_spec h.length h rfl hs hh).2

theorem jsGE_some_spec {a : Option Int} {m : Int} (h : jsGE a (some m) = true) :
    ∃ s, a = some s ∧ m ≤ s := by
  cases a with
  | none => simp [jsGE] at h
  | some x =>
    refine ⟨x, rfl, ?_⟩
    simpa [jsGE] using h

theorem keys_filterA (bullets : List Bullet) (topK : Nat) (minScore : Int) :
    (filterBulletsByCompany bullets topK minScore).map Prod.fst =
      (List.foldl (stepA minScore) [] bullets).map Prod.fst := by
  unfold filterBulletsByCompany
  exact keys_mapVals _ _

theorem keys_filterB (bullets : List Bullet) (topK : Nat) (minScore : Int) :
    (filterBulletsWithHeap bullets topK minScore).map Prod.fst =
      (List.foldl (stepB topK minScore) [] bullets).map Prod.fst := by
  unfold filterBulletsWithHeap
  exact keys_mapVals _ _

/-! ## Claim theorems -/

/-- C1: for every call to either selection strategy with `topK >= 1`, every
group of the returned mapping holds at most `topK` records, and every record
in any returned group carries a `relevance_score` that is present and at
least `minScore`. -/
theorem C1_topK_bound_and_threshold (bullets : List Bullet) (topK : Nat)
    (minScore : Int) (htop : 1 ≤ topK) :
    (∀ p ∈ filterBulletsByCompany bullets topK minScore,
      p.2.length ≤ topK ∧
        ∀ b ∈ p.2, ∃ s, b.relevance_score = some s ∧ minScore ≤ s) ∧
    (∀ p ∈ filterBulletsWithHeap bullets topK minScore,
      p.2.length ≤ topK ∧
        ∀ b ∈ p.2, ∃ s, b.relevance_score = some s ∧ minScore ≤ s) := by
  constructor
  · intro p hp
    rcases filterA_entry hp with ⟨q, hq, rfl⟩
    constructor
    · simp only [List.length_take]
      omega
    · intro b hb
      have hbq : b ∈ q.2 := mem_sortDesc_take hb
      exact jsGE_some_spec (invA_result bullets minScore q hq b hbq).2.1
  · intro p hp
    rcases filterB_entry hp with ⟨q, hq, rfl⟩
    obtain ⟨hheap, hscored, hlen, hmem⟩ := invB_result bullets topK minScore q hq
    have hperm : List.Perm (sortDesc (drainFront q.2)) q.2 :=
      (sortDesc_perm _).trans (drainFront_perm hheap hscored)
    constructor
    · exact le_trans (le_of_eq hperm.length_eq) hlen
    · intro b hb
      exact jsGE_some_spec (hmem b (hperm.mem_iff.mp hb)).2.1

/-- Witness for C1 at a concrete input with `topK = 1`. -/
theorem C1_witness :
    (1 ≤ 1) ∧
    ((∀ p ∈ filterBulletsByCompany [bW] 1 0,
      p.2.length ≤ 1 ∧ ∀ b ∈ p.2, ∃ s, b.relevance_score = some s ∧ (0:Int) ≤ s) ∧
    (∀ p ∈ filterBulletsWithHeap [bW] 1 0,
      p.2.length ≤ 1 ∧ ∀ b ∈ p.2, ∃ s, b.relevance_score = some s ∧ (0:Int) ≤ s)) :=
  ⟨by decide, C1_topK_bound_and_threshold [bW] 1 0 (by decide)⟩

/-- C2: for every input and both strategies, every group of the returned
mapping is sorted by score non-increasing (pairwise, an earlier record's
score is at least a later record's; by C1 every returned record carries its
score, which `key` then reads off). -/
theorem C2_groups_sorted_nonincreasing (bullets : List Bullet) (topK : Nat)
    (minScore : Int) :
    (∀ p ∈ filterBulletsByCompany bullets topK minScore,
      List.Pairwise (fun a b => key b ≤ key a) p.2) ∧
    (∀ p ∈ filterBulletsWithHeap bullets topK minScore,
      List.Pairwise (fun a b => key b ≤ key a) p.2) := by
  constructor
  · intro p hp
    rcases filterA_entry hp with ⟨q, hq, rfl⟩
    exact sortDesc_take_sorted q.2 topK
  · intro p hp
    rcases filterB_entry hp with ⟨q, hq, rfl⟩
    exact sortDesc_sorted _

/-- C6: `extractMin` and `peek` on an empty heap return the `null`
indicator (and, the functions being total, never throw), for every heap
state reachable by any sequence of `insert`/`extractMin` operations. -/
theorem C6_empty_heap_returns_null (ops : List HeapOp)
    (h : size (runOps ops) = 0) :
    extractMin (runOps ops) = (none, runOps ops) ∧ peek (runOps ops) = none := by
  have hnil : runOps ops = [] := List.length_eq_zero.mp h
  rw [hnil]
  exact ⟨rfl, rfl⟩

/-- Witness for C6: insert one record, then extract it; the resulting empty
heap answers `null` to both probes. -/
theorem C6_witness :
    size (runOps [HeapOp.ins bW, HeapOp.ext]) = 0 ∧
    (extractMin (runOps [HeapOp.ins bW, HeapOp.ext]) =
        (none, runOps [HeapOp.ins bW, HeapOp.ext]) ∧
      peek (runOps [HeapOp.ins bW, HeapOp.ext]) = none) :=
  ⟨by decide, C6_empty_heap_returns_null [HeapOp.ins bW, HeapOp.ext] (by decide)⟩

/-- C7: on the spec's concrete scenario (three "A" records scoring 90, 50,
70 and one "B" record scoring 40, `topK = 2`, `minScore = 60`), the
full-sort strategy returns group "A" as exactly the 90- and 70-records in
that order, and group "B" present and empty (the implementation's chosen
empty-group convention). -/
theorem C7_concrete_scenario :
    lookupG (filterBulletsByCompany [bA90, bA50, bA70, bB40] 2 60) "A" =
        some [bA90, bA70] ∧
      lookupG (filterBulletsByCompany [bA90, bA50, bA70, bB40] 2 60) "B" =
        some ([] : List Bullet) := by
  decide

/-- C8: every record placed in a group of either strategy's result is an
element of the input list — the very record, all fields included, so opaque
payload passes through verbatim; the embedding is a pure function of the
input, which the source matches by never writing to the caller's array or to
any record. -/
theorem C8_result_records_are_input_records (bullets : List Bullet)
    (topK : Nat) (minScore : Int) :
    (∀ p ∈ filterBulletsByCompany bullets topK minScore, ∀ b ∈ p.2, b ∈ bullets) ∧
    (∀ p ∈ filterBulletsWithHeap bullets topK minScore, ∀ b ∈ p.2, b ∈ bullets) := by
  constructor
  · intro p hp
    rcases filterA_entry hp with ⟨q, hq, rfl⟩
    intro b hb
    exact (invA_result bullets minScore q hq b (mem_sortDesc_take hb)).2.2
  · intro p hp
    rcases filterB_entry hp with ⟨q, hq, rfl⟩
    obtain ⟨hheap, hscored, hlen, hmem⟩ := invB_result bullets topK minScore q hq
    have hperm : List.Perm (sortDesc (drainFront q.2)) q.2 :=
      (sortDesc_perm _).trans (drainFront_perm hheap hscored)
    intro b hb
    exact (hmem b (hperm.mem_iff.mp hb)).2.2

/-- C9: every group key occurring in the input (after the "Unknown"
substitution) appears as a key of both strategies' results; the two results
carry the same key sequence (so the convention is shared); and a group none
of whose records meets `minScore` maps to the empty sequence in both. -/
theorem C9_every_group_key_present (bullets : List Bullet) (topK : Nat)
    (minScore : Int) :
    (∀ b ∈ bullets, groupKey b.company ∈
        (filterBulletsByCompany bullets topK minScore).map Prod.fst) ∧
    (filterBulletsByCompany bullets topK minScore).map Prod.fst =
      (filterBulletsWithHeap bullets topK minScore).map Prod.fst ∧
    (∀ p ∈ filterBulletsByCompany bullets topK minScore,
      (∀ b ∈ bullets, groupKey b.company = p.1 →
        jsGE b.relevance_score (some minScore) = false) → p.2 = []) ∧
    (∀ p ∈ filterBulletsWithHeap bullets topK minScore,
      (∀ b ∈ bullets, groupKey b.company = p.1 →
        jsGE b.relevance_score (some minScore) = false) → p.2 = []) := by
  refine ⟨?_, ?_, ?_, ?_⟩
  · intro b hb
    rw [keys_filterA]
    exact mem_keys_foldA bullets [] b hb
  · rw [keys_filterA, keys_filterB]
    exact keys_fold_eq bullets [] [] rfl
  · intro p hp hnone
    rcases filterA_entry hp with ⟨q, hq, rfl⟩
    by_contra hne
    rcases List.exists_mem_of_ne_nil _ hne with ⟨b, hb⟩
    obtain ⟨hkey, hge, hmem⟩ := invA_result bullets minScore q hq b (mem_sortDesc_take hb)
    have := hnone b hmem hkey
    rw [hge] at this
    exact absurd this (by simp)
  · intro p hp hnone
    rcases filterB_entry hp with ⟨q, hq, rfl⟩
    by_contra hne
    rcases List.exists_mem_of_ne_nil _ hne with ⟨b, hb⟩
    obtain ⟨hheap, hscored, hlen, hmemall⟩ := invB_result bullets topK minScore q hq
    have hperm : List.Perm (sortDesc (drainFront q.2)) q.2 :=
      (sortDesc_perm _).trans (drainFront_perm hheap hscored)
    obtain ⟨hkey, hge, hmem⟩ := hmemall b (hperm.mem_iff.mp hb)
    have := hnone b hmem hkey
    rw [hge] at this
    exact absurd this (by simp)

/-- Witness for C9's inner hypotheses at a concrete input: the key of a
present record is a key of the result, and a group whose only record fails
the threshold (the "B" group at `minScore = 60`) maps to the empty list. -/
theorem C9_witness :
    groupKey bB40.company ∈
      (filterBulletsByCompany [bA90, bB40] 2 60).map Prod.fst ∧
    ∀ p ∈ filterBulletsByCompany [bA90, bB40] 2 60, p.1 = "B" → p.2 = [] := by
  constructor
  · exact (C9_every_group_key_present [bA90, bB40] 2 60).1 bB40 (by decide)
  · intro p hp hpB
    apply (C9_every_group_key_present [bA90, bB40] 2 60).2.2.1 p hp
    intro b hb hkey
    rw [hpB] at hkey
    have hb' : b = bA90 ∨ b = bB40 := by
      rcases List.mem_cons.mp hb with h | h
      · exact Or.inl h
      · simp at h; exact Or.inr h
    rcases hb' with rfl | rfl
    · exact absurd hkey (by decide)
    · decide

/-- C10: a record whose `company` field is any falsy value (absent/undefined,
null, the empty string, 0, or false) is keyed under the literal "Unknown" in
both strategies — such a record only ever appears in the "Unknown" group —
and the empty string is never a key of either result, so an empty-string
company never forms its own group. -/
theorem C10_falsy_company_is_unknown (bullets : List Bullet) (topK : Nat)
    (minScore : Int) :
    (∀ c : CompanyVal, c.truthy = false → groupKey c = "Unknown") ∧
    (∀ p ∈ filterBulletsByCompany bullets topK minScore, ∀ b ∈ p.2,
      b.company.truthy = false → p.1 = "Unknown") ∧
    (∀ p ∈ filterBulletsWithHeap bullets topK minScore, ∀ b ∈ p.2,
      b.company.truthy = false → p.1 = "Unknown") ∧
    "" ∉ (filterBulletsByCompany bullets topK minScore).map Prod.fst ∧
    "" ∉ (filterBulletsWithHeap bullets topK minScore).map Prod.fst := by
  refine ⟨?_, ?_, ?_, ?_, ?_⟩
  · intro c hc
    unfold groupKey
    rw [hc]
    rfl
  · intro p hp b hb hfalsy
    rcases filterA_entry hp with ⟨q, hq, rfl⟩
    have hkey := (invA_result bullets minScore q hq b (mem_sortDesc_take hb)).1
    rw [← hkey]
    unfold groupKey
    rw [hfalsy]
    rfl
  · intro p hp b hb hfalsy
    rcases filterB_entry hp with ⟨q, hq, rfl⟩
    obtain ⟨hheap, hscored, _, hmemall⟩ := invB_result bullets topK minScore q hq
    have hperm : List.Perm (sortDesc (drainFront q.2)) q.2 :=
      (sortDesc_perm _).trans (drainFront_perm hheap hscored)
    have hkey := (hmemall b (hperm.mem_iff.mp hb)).1
    rw [← hkey]
    unfold groupKey
    rw [hfalsy]
    rfl
  · intro hcon
    rw [keys_filterA] at hcon
    rcases keys_fold_subset (stepA minScore) (fun acc b => keys_stepA_or acc b)
      bullets [] "" hcon with h | ⟨b, _, hk⟩
    · simp at h
    · exact groupKey_ne_empty b.company hk.symm
  · intro hcon
    rw [keys_filterB] at hcon
    rcases keys_fold_subset (stepB topK minScore) (fun acc b => keys_stepB_or acc b)
      bullets [] "" hcon with h | ⟨b, _, hk⟩
    · simp at h
    · exact groupKey_ne_empty b.company hk.symm

/-- Witness for C10's hypotheses at a concrete input: the empty-string
company is grouped under "Unknown". -/
theorem C10_witness :
    (CompanyVal.str "").truthy = false ∧ groupKey (CompanyVal.str "") = "Unknown" :=
  ⟨by decide, (C10_falsy_company_is_unknown [] 5 0).1 (CompanyVal.str "") (by decide)⟩

/-- Counterexample to C5: on an input whose only record lacks
`relevance_score` entirely, both strategies return normally — the record is
silently dropped (the JS comparison `undefined >= minScore` is false), its
group key is present with an empty group, and no error is raised. -/
theorem C5_counterexample :
    filterBulletsByCompany [bMissing] 5 0 = [("A", [])] ∧
    filterBulletsWithHeap [bMissing] 5 0 = [("A", [])] := by
  decide

/-- C5 as amended: a record missing `relevance_score` is silently excluded —
it appears in no group of either strategy's result (both strategies being
total functions, no error is ever raised). -/
theorem C5_amended_missing_score_dropped (bullets : List Bullet) (topK : Nat)
    (minScore : Int) (b : Bullet) (hb : b.relevance_score = none) :
    (∀ p ∈ filterBulletsByCompany bullets topK minScore, b ∉ p.2) ∧
    (∀ p ∈ filterBulletsWithHeap bullets topK minScore, b ∉ p.2) := by
  constructor
  · intro p hp hmem
    rcases filterA_entry hp with ⟨q, hq, rfl⟩
    have hge := (invA_result bullets minScore q hq b (mem_sortDesc_take hmem)).2.1
    rw [hb] at hge
    simp [jsGE] at hge
  · intro p hp hmem
    rcases filterB_entry hp with ⟨q, hq, rfl⟩
    obtain ⟨hheap, hscored, _, hmemall⟩ := invB_result bullets topK minScore q hq
    have hperm : List.Perm (sortDesc (drainFront q.2)) q.2 :=
      (sortDesc_perm _).trans (drainFront_perm hheap hscored)
    have hge := (hmemall b (hperm.mem_iff.mp hmem)).2.1
    rw [hb] at hge
    simp [jsGE] at hge

/-- Witness for the amended C5 at a concrete input. -/
theorem C5_amended_witness :
    bMissing.relevance_score = none ∧
    ((∀ p ∈ filterBulletsByCompany [bMissing] 5 0, bMissing ∉ p.2) ∧
     (∀ p ∈ filterBulletsWithHeap [bMissing] 5 0, bMissing ∉ p.2)) :=
  ⟨by decide, C5_amended_missing_score_dropped [bMissing] 5 0 bMissing (by decide)⟩

/-- Witness for C2 at a concrete input: the "A" group of the worked
scenario is pairwise non-increasing. -/
theorem C2_witness :
    List.Pairwise (fun a b => key b ≤ key a) [bA90, bA70] :=
  (C2_groups_sorted_nonincreasing [bA90, bA50, bA70, bB40] 2 60).1
    ("A", [bA90, bA70]) (by decide)

/-- Witness for C8 at a concrete input: a record of the result's "A" group
is one of the input records. -/
theorem C8_witness : bA90 ∈ [bA90, bA50, bA70, bB40] :=
  (C8_result_records_are_input_records [bA90, bA50, bA70, bB40] 2 60).1
    ("A", [bA90, bA70]) (by decide) bA90 (by decide)

/-- C4: inserting any records that carry scores into a fresh `MinHeap` and
then extracting until empty yields the records in non-decreasing score
order. -/
theorem C4_insert_extract_sorted (bs : List Bullet)
    (hsc : ∀ b ∈ bs, b.relevance_score.isSome = true) :
    List.Sorted (fun a b => key a ≤ key b) (drainAsc (bs.foldl heapInsert [])) := by
  have hinv : IsHeap (bs.foldl heapInsert []) ∧ Scored (bs.foldl heapInsert []) := by
    apply foldl_inv (fun h => IsHeap h ∧ Scored h) heapInsert bs []
    · constructor
      · intro j hj hjl; simp at hjl
      · intro x hx; simp at hx
    · intro s a ha hs
      refine ⟨heapInsert_isHeap hs.2 hs.1 (hsc a ha), ?_⟩
      apply Scored.of_perm (heapInsert_perm s a).symm
      intro x hx
      rcases List.mem_append.mp hx with h | h
      · exact hs.2 x h
      · simp at h; subst h; exact hsc _ ha
  exact (drain_spec _ _ rfl hinv.2 hinv.1).1

/-- Witness for C4 at a concrete input. -/
theorem C4_witness :
    (∀ b ∈ [bA50, bA90, bA70], b.relevance_score.isSome = true) ∧
      List.Sorted (fun a b => key a ≤ key b)
        (drainAsc ([bA50, bA90, bA70].foldl heapInsert [])) :=
  ⟨by decide, C4_insert_extract_sorted [bA50, bA90, bA70] (by decide)⟩

/-! ### Strategy equivalence (C3) -/

theorem map_key_orderedInsert (a : Bullet) :
    ∀ (g : List Bullet), (List.orderedInsert descRel a g).map key =
      List.orderedInsert geInt (key a) (g.map key) := by
  intro g
  induction g with
  | nil => rfl
  | cons bhd t ih =>
    by_cases h : descRel a bhd
    · have h' : geInt (key a) (key bhd) := h
      simp [List.orderedInsert, h, h']
    · have h' : ¬ geInt (key a) (key bhd) := h
      simp [List.orderedInsert, h, h', ih]

theorem map_key_sortDesc :
    ∀ (g : List Bullet), (sortDesc g).map key = sortDescInt (g.map key) := by
  intro g
  induction g with
  | nil => rfl
  | cons bhd t ih =>
    show (List.orderedInsert descRel bhd (sortDesc t)).map key =
      List.orderedInsert geInt (key bhd) (sortDescInt (t.map key))
    rw [map_key_orderedInsert, ih]

theorem sortDescInt_append (s : List Int) (x : Int) :
    sortDescInt (s ++ [x]) = List.orderedInsert geInt x (sortDescInt s) := by
  have h1 : List.Perm (sortDescInt (s ++ [x])) (s ++ [x]) :=
    List.perm_insertionSort geInt (s ++ [x])
  have h2 : List.Perm (s ++ [x]) (x :: s) := List.perm_append_singleton x s
  have h3 : List.Perm (x :: s) (x :: sortDescInt s) :=
    (List.perm_insertionSort geInt s).symm.cons x
  have h4 : List.Perm (x :: sortDescInt s)
      (List.orderedInsert geInt x (sortDescInt s)) :=
    (List.perm_orderedInsert geInt x (sortDescInt s)).symm
  exact List.eq_of_perm_of_sorted (((h1.trans h2).trans h3).trans h4)
    (List.sorted_insertionSort geInt (s ++ [x]))
    ((List.sorted_insertionSort geInt s).orderedInsert x _)

theorem orderedInsert_head_of_sorted {a : Int} {t : List Int}
    (h : List.Sorted geInt (a :: t)) : List.orderedInsert geInt a t = a :: t := by
  cases t with
  | nil => rfl
  | cons c t' =>
    have hac : geInt a c := List.rel_of_sorted_cons h c (by simp)
    simp [List.orderedInsert, hac]

theorem coe_cons_eq (a : Int) (l : List Int) :
    ((a :: l : List Int) : Multiset Int) = {a} + (l : Multiset Int) := by
  rw [← Multiset.cons_coe, ← Multiset.singleton_add]

/-- The bounded-heap step on the top-K multiset: adding `x` to the score
list and re-taking the top `K` is the same as adding `x` to the previous top
`K` and removing one minimal element `m` of the enlarged collection (when
the sorted list already covers `K`). -/
theorem take_orderedInsert_minus_min :
    ∀ (t : List Int), List.Sorted geInt t → ∀ (K : Nat) (x m : Int),
      K ≤ t.length → m ∈ x :: t.take K → (∀ y ∈ x :: t.take K, m ≤ y) →
      (((List.orderedInsert geInt x t).take K : List Int) : Multiset Int) + {m} =
        {x} + ((t.take K : List Int) : Multiset Int) := by
  intro t
  induction t with
  | nil =>
    intro _ K x m hK hmem hmin
    have hK0 : K = 0 := by simpa using hK
    subst hK0
    simp at hmem
    subst hmem
    simp
  | cons bhd t' ih =>
    intro hsort K x m hK hmem hmin
    have hsort' : List.Sorted geInt t' := hsort.of_cons
    cases K with
    | zero =>
      simp at hmem
      subst hmem
      simp
    | succ K' =>
      have hK' : K' ≤ t'.length := by simpa using hK
      by_cases hxb : geInt x bhd
      · rw [List.orderedInsert_of_le geInt _ hxb]
        have hoi : List.orderedInsert geInt bhd t' = bhd :: t' :=
          orderedInsert_head_of_sorted hsort
        have hmem' : m ∈ bhd :: t'.take K' := by
          rcases List.mem_cons.mp hmem with hmx | hmem2
          · subst hmx
            have h1 : m ≤ bhd := hmin bhd (by simp)
            have h2 : bhd ≤ m := hxb
            have h3 : m = bhd := le_antisymm h1 h2
            rw [h3]
            simp
          · simpa using hmem2
        have hmin' : ∀ y ∈ bhd :: t'.take K', m ≤ y := by
          intro y hy
          apply hmin
          rcases List.mem_cons.mp hy with h | h
          · subst h; simp
          · simp [h]
        have hih := ih hsort' K' bhd m hK' hmem' hmin'
        rw [hoi] at hih
        rw [List.take_succ_cons, List.take_succ_cons, coe_cons_eq, coe_cons_eq,
          add_assoc, hih]
      · simp only [List.orderedInsert, if_neg hxb]
        have hxlt : x < bhd := by
          have hn : ¬ bhd ≤ x := hxb
          omega
        have hmem' : m ∈ x :: t'.take K' := by
          rcases List.mem_cons.mp hmem with hmx | hmem2
          · subst hmx; simp
          · rcases List.mem_cons.mp (by simpa using hmem2) with hmb | hmt
            · exfalso
              have h1 : m ≤ x := hmin x (by simp)
              omega
            · simp [hmt]
        have hmin' : ∀ y ∈ x :: t'.take K', m ≤ y := by
          intro y hy
          apply hmin
          rcases List.mem_cons.mp hy with h | h
          · subst h; simp
          · simp [h]
        have hih := ih hsort' K' x m hK' hmem' hmin'
        rw [List.take_succ_cons, List.take_succ_cons, coe_cons_eq, coe_cons_eq,
          add_assoc, hih]
        rw [← add_assoc, ← add_assoc, add_comm ({bhd} : Multiset Int) ({x} : Multiset Int)]

/-- One bounded-heap update keeps the heap's scores equal (as a multiset) to
the top `K` scores of the records routed to the group so far. -/
theorem heapStep_topScores {g h : List Bullet} {K : Nat} {b : Bullet}
    (hheap : IsHeap h) (hsc : Scored h) (hlen : h.length ≤ K)
    (hmult : ((h.map key : List Int) : Multiset Int) =
      ((topScores K (g.map key) : List Int) : Multiset Int))
    (hb : b.relevance_score.isSome = true) :
    (((heapStep K h b).map key : List Int) : Multiset Int) =
      ((topScores K ((g ++ [b]).map key) : List Int) : Multiset Int) := by
  set s := g.map key with hs
  set x := key b with hx
  set t := sortDescInt s with ht
  have hts : List.Sorted geInt t := List.sorted_insertionSort geInt s
  have hmult' : ((h.map key : List Int) : Multiset Int) =
      ((t.take K : List Int) : Multiset Int) := by rw [hmult]; rfl
  have htarget : topScores K ((g ++ [b]).map key) =
      (List.orderedInsert geInt x t).take K := by
    unfold topScores
    rw [List.map_append]
    show (sortDescInt (s ++ [x])).take K = _
    rw [sortDescInt_append]
  have hlen_take : h.length = (t.take K).length := by
    have hcard := congrArg Multiset.card hmult'
    simpa using hcard
  have hsc' : Scored (heapInsert h b) := by
    apply Scored.of_perm (heapInsert_perm h b).symm
    intro y hy
    rcases List.mem_append.mp hy with hm | hm
    · exact hsc y hm
    · simp at hm; subst hm; exact hb
  have hheap' : IsHeap (heapInsert h b) := heapInsert_isHeap hsc hheap hb
  have hlen' : (heapInsert h b).length = h.length + 1 := heapInsert_length h b
  have hkey' : (((heapInsert h b).map key : List Int) : Multiset Int) =
      {x} + ((t.take K : List Int) : Multiset Int) := by
    have hmp : List.Perm ((heapInsert h b).map key) ((h ++ [b]).map key) :=
      (heapInsert_perm h b).map key
    rw [Multiset.coe_eq_coe.mpr hmp, List.map_append]
    have hcoe : (((h.map key ++ [b].map key : List Int)) : Multiset Int) =
        ((h.map key : List Int) : Multiset Int) + (([b].map key : List Int) : Multiset Int) := by
      exact_mod_cast rfl
    rw [hcoe, hmult']
    have hsing : (([b].map key : List Int) : Multiset Int) = {x} := by simp
    rw [hsing]
    exact add_comm _ _
  rw [htarget]
  unfold heapStep
  split
  · next hover =>
    have hKt : K ≤ t.length := by
      have h1 : h.length = K := by omega
      rw [h1] at hlen_take
      have h2 := List.length_take K t
      omega
    have hne : heapInsert h b ≠ [] := by
      intro hcon
      rw [hcon] at hlen'
      simp at hlen'
    have hcp := extractMin_cons_perm hne
    have hkey2 : {key (nth (heapInsert h b) 0)} +
        (((extractMin (heapInsert h b)).2.map key : List Int) : Multiset Int) =
        {x} + ((t.take K : List Int) : Multiset Int) := by
      have hm2 : List.Perm
          ((nth (heapInsert h b) 0 :: (extractMin (heapInsert h b)).2).map key)
          ((heapInsert h b).map key) := hcp.map key
      have hcoe := Multiset.coe_eq_coe.mpr hm2
      rw [← hkey', ← hcoe]
      simp only [List.map_cons]
      rw [coe_cons_eq]
    set m := key (nth (heapInsert h b) 0) with hm
    have hmem_r : m ∈ x :: t.take K := by
      have h1 : m ∈ ({x} + ((t.take K : List Int) : Multiset Int) : Multiset Int) := by
        rw [← hkey2]; simp
      rcases Multiset.mem_add.mp h1 with h2 | h2
      · simp at h2; simp [h2]
      · exact List.mem_cons_of_mem _ (Multiset.mem_coe.mp h2)
    have hmin_r : ∀ y ∈ x :: t.take K, m ≤ y := by
      intro y hy
      have h1 : y ∈ ({x} + ((t.take K : List Int) : Multiset Int) : Multiset Int) := by
        rcases List.mem_cons.mp hy with h2 | h2
        · subst h2; simp
        · exact Multiset.mem_add.mpr (Or.inr (Multiset.mem_coe.mpr h2))
      rw [← hkey'] at h1
      rcases List.mem_map.mp (Multiset.mem_coe.mp h1) with ⟨b', hb', rfl⟩
      exact extractMin_root_min hsc' hheap' b' hb'
    have hcore := take_orderedInsert_minus_min t hts K x m hKt hmem_r hmin_r
    have hfin : (((extractMin (heapInsert h b)).2.map key : List Int) : Multiset Int) + {m} =
        (((List.orderedInsert geInt x t).take K : List Int) : Multiset Int) + {m} := by
      rw [hcore]
      rw [← hkey2]
      exact add_comm _ _
    exact add_right_cancel hfin
  · next hover =>
    have hlt : t.length < K := by
      have h1 : h.length + 1 ≤ K := by omega
      have h2 := List.length_take K t
      omega
    have htake_all : t.take K = t := List.take_of_length_le (le_of_lt hlt)
    have htake_all2 : (List.orderedInsert geInt x t).take K =
        List.orderedInsert geInt x t := by
      apply List.take_of_length_le
      rw [List.orderedInsert_length]
      omega
    rw [htake_all2, hkey', htake_all]
    have hperm := List.perm_orderedInsert geInt x t
    rw [Multiset.coe_eq_coe.mpr hperm, coe_cons_eq]

theorem forall2_keys_eq {K : Nat} :
    ∀ {accA accB : List (String × List Bullet)},
      List.Forall₂ (EntryRel K) accA accB →
      accA.map Prod.fst = accB.map Prod.fst := by
  intro accA accB h
  induction h with
  | nil => rfl
  | cons hR _ ih => simp [ih, hR.1]

theorem entryRel_nil {K : Nat} (c : String) :
    EntryRel K (c, ([] : List Bullet)) (c, ([] : List Bullet)) := by
  refine ⟨rfl, ?_, ?_, ?_, ?_, ?_⟩
  · intro j hj hjl; simp at hjl
  · intro y hy; simp at hy
  · simp
  · intro y hy; simp at hy
  · simp [topScores, sortDescInt]

theorem entryRel_step {K : Nat} {pA pB : String × List Bullet} {b : Bullet}
    (hR : EntryRel K pA pB) (hb : b.relevance_score.isSome = true) :
    EntryRel K (pA.1, pA.2 ++ [b]) (pB.1, heapStep K pB.2 b) := by
  obtain ⟨hkey, hheap, hsc, hlen, hgA, hmult⟩ := hR
  obtain ⟨h1, h2, h3, _⟩ := heapStep_spec hheap hsc hlen hb
  refine ⟨hkey, h1, h2, h3, ?_, ?_⟩
  · intro y hy
    rcases List.mem_append.mp hy with hm | hm
    · exact hgA y hm
    · simp at hm; subst hm; exact hb
  · exact heapStep_topScores hheap hsc hlen hmult hb

theorem forall2_updateG_step {K : Nat} {accA accB : List (String × List Bullet)}
    (h : List.Forall₂ (EntryRel K) accA accB) (c : String) (b : Bullet)
    (hb : b.relevance_score.isSome = true) :
    List.Forall₂ (EntryRel K) (updateG accA c (fun g => g ++ [b]))
      (updateG accB c (fun h' => heapStep K h' b)) := by
  induction h with
  | nil => constructor
  | cons hR hrest ih =>
    simp only [updateG, List.map_cons]
    refine List.Forall₂.cons ?_ ih
    next pA pB _ _ =>
      by_cases hc : pA.1 = c
      · rw [if_pos hc, if_pos (by rw [← hR.1]; exact hc)]
        exact entryRel_step hR hb
      · rw [if_neg hc, if_neg (by rw [← hR.1]; exact hc)]
        exact hR

theorem foldAB_lockstep {K : Nat} {m : Int} :
    ∀ (bs : List Bullet) (accA accB : List (String × List Bullet)),
      List.Forall₂ (EntryRel K) accA accB →
      List.Forall₂ (EntryRel K) (List.foldl (stepA m) accA bs)
        (List.foldl (stepB K m) accB bs) := by
  intro bs
  induction bs with
  | nil => intro accA accB h; exact h
  | cons b rest ih =>
    intro accA accB h
    simp only [List.foldl_cons]
    apply ih
    have hkeys := forall2_keys_eq h
    have hiff : ((lookupG accA (groupKey b.company)).isSome = true) ↔
        ((lookupG accB (groupKey b.company)).isSome = true) := by
      rw [lookupG_isSome_iff, lookupG_isSome_iff, hkeys]
    have hsome : (lookupG accA (groupKey b.company)).isSome =
        (lookupG accB (groupKey b.company)).isSome := by
      cases hA : (lookupG accA (groupKey b.company)).isSome <;>
        cases hB : (lookupG accB (groupKey b.company)).isSome <;> simp_all
    have hens : List.Forall₂ (EntryRel K)
        (if (lookupG accA (groupKey b.company)).isSome then accA
          else accA ++ [(groupKey b.company, [])])
        (if (lookupG accB (groupKey b.company)).isSome then accB
          else accB ++ [(groupKey b.company, [])]) := by
      rw [← hsome]
      split
      · exact h
      · exact List.rel_append h
          (List.Forall₂.cons (entryRel_nil _) List.Forall₂.nil)
    by_cases hge : jsGE b.relevance_score (some m) = true
    · simp only [stepA, stepB, if_pos hge]
      exact forall2_updateG_step hens _ b (jsGE_isSome_left hge)
    · simp only [stepA, stepB, if_neg hge]
      exact hens

theorem resultPairs_cons (p : String × List Bullet)
    (rest : List (String × List Bullet)) :
    resultPairs (p :: rest) =
      ((p.2.map (fun b => (p.1, key b)) : List (String × Int)) : Multiset (String × Int)) +
        resultPairs rest := by
  unfold resultPairs
  rw [List.map_cons, List.flatten_cons]
  exact_mod_cast rfl

theorem resultPairs_lockstep {K : Nat} :
    ∀ {accA accB : List (String × List Bullet)},
      List.Forall₂ (EntryRel K) accA accB →
      resultPairs (accA.map (fun p => (p.1, (sortDesc p.2).take K))) =
        resultPairs (accB.map (fun p => (p.1, sortDesc (drainFront p.2)))) := by
  intro accA accB h
  induction h with
  | nil => rfl
  | cons hR hrest ih =>
    next pA pB restA restB =>
      simp only [List.map_cons]
      rw [resultPairs_cons, resultPairs_cons, ih]
      congr 1
      obtain ⟨hkey, hheap, hsc, hlen, hgA, hmult⟩ := hR
      have hA : (((sortDesc pA.2).take K).map (fun b => ((pA.1, (sortDesc pA.2).take K).1, key b)) : List (String × Int)) =
          (((sortDesc pA.2).take K).map key).map (Prod.mk pA.1) := by
        rw [List.map_map]; rfl
      have hB : ((sortDesc (drainFront pB.2)).map (fun b => ((pB.1, sortDesc (drainFront pB.2)).1, key b)) : List (String × Int)) =
          ((sortDesc (drainFront pB.2)).map key).map (Prod.mk pB.1) := by
        rw [List.map_map]; rfl
      show (((sortDesc pA.2).take K).map (fun b => ((pA.1, (sortDesc pA.2).take K).1, key b)) : Multiset (String × Int)) =
        ((sortDesc (drainFront pB.2)).map (fun b => ((pB.1, sortDesc (drainFront pB.2)).1, key b)) : Multiset (String × Int))
      rw [hA, hB, ← hkey]
      have hAkeys : ((((sortDesc pA.2).take K).map key : List Int) : Multiset Int) =
          ((topScores K (pA.2.map key) : List Int) : Multiset Int) := by
        rw [List.map_take, map_key_sortDesc]
        rfl
      have hBkeys : (((sortDesc (drainFront pB.2)).map key : List Int) : Multiset Int) =
          ((pB.2.map key : List Int) : Multiset Int) := by
        apply Multiset.coe_eq_coe.mpr
        apply List.Perm.map
        exact (sortDesc_perm _).trans (drainFront_perm hheap hsc)
      have hk : (((List.take K (sortDesc pA.2)).map key : List Int) : Multiset Int) =
          (((sortDesc (drainFront pB.2)).map key : List Int) : Multiset Int) :=
        (hAkeys.trans hmult.symm).trans hBkeys.symm
      have hfin := congrArg (Multiset.map (Prod.mk pA.1)) hk
      rw [Multiset.map_coe, Multiset.map_coe] at hfin
      exact hfin

/-- C3: when no two records tie at the K-th boundary in any group, the two
strategies return identical multisets of (group key, relevance_score)
pairs. -/
theorem C3_pair_multisets_equal (bullets : List Bullet) (topK : Nat)
    (minScore : Int) (hties : NoBoundaryTies bullets topK minScore) :
    resultPairs (filterBulletsByCompany bullets topK minScore) =
      resultPairs (filterBulletsWithHeap bullets topK minScore) :=
  resultPairs_lockstep (foldAB_lockstep bullets [] [] List.Forall₂.nil)

/-- Witness for C3 at a concrete boundary-tie-free input. -/
theorem C3_witness :
    NoBoundaryTies [bA90, bB40] 2 60 ∧
      resultPairs (filterBulletsByCompany [bA90, bB40] 2 60) =
        resultPairs (filterBulletsWithHeap [bA90, bB40] 2 60) := by
  have hnbt : NoBoundaryTies [bA90, bB40] 2 60 := by
    intro c a b ha hb
    exfalso
    have h40 : (decide (groupKey bB40.company = c) &&
        jsGE bB40.relevance_score (some 60)) = false := by
      have hge : jsGE bB40.relevance_score (some 60) = false := by decide
      rw [hge, Bool.and_false]
    have hlen2 : (groupRecords [bA90, bB40] 60 c).length ≤ 1 := by
      unfold groupRecords
      rw [List.filter_cons, List.filter_cons, List.filter_nil, h40]
      split <;> simp
    have hlen3 : (sortDescInt ((groupRecords [bA90, bB40] 60 c).map key)).length ≤ 1 := by
      show (List.insertionSort geInt _).length ≤ 1
      rw [(List.perm_insertionSort geInt _).length_eq, List.length_map]
      exact hlen2
    rw [List.getElem?_eq_none (by omega)] at hb
    simp at hb
  exact ⟨hnbt, C3_pair_multisets_equal [bA90, bB40] 2 60 hnbt⟩

end HeapFilter
